import Mathlib

/-!
# godis: sharded concurrent dictionary and keyed lock table

Shallow embedding of `datastruct/dict/concurrent.go` and
`datastruct/lock/lock_map.go`.

Conventions of the embedding

* A Go `string` is a finite sequence of bytes: `GoString = List (Fin 256)`.
* Go `int` is the 64-bit signed integer of the usual platforms: values are
  `Int`, and every arithmetic result is reduced by `wrapInt64`.
* Go `uint32` values are `Nat`, every arithmetic result is reduced modulo `2^32`.
* Go `int32` values are `Int`, reduced by `wrapInt32`.
* A `panic` is the error side of `Except String`; the text is the panic message.
* A nil slice is `none`; a non-nil slice of length `n` is `some l` with `l.length = n`.
* A Go `map[string]interface{}` is an association list with at most one entry per key.
* Operations run one at a time, so the shard mutexes are not part of the state.
-/

/-- A Go string: a finite sequence of bytes. -/
abbrev GoString := List (Fin 256)

/-- Two's-complement reduction of an integer to the range of a 64-bit Go `int`. -/
def wrapInt64 (x : Int) : Int := (x + 2 ^ 63) % 2 ^ 64 - 2 ^ 63

/-- Two's-complement reduction of an integer to the range of a Go `int32`. -/
def wrapInt32 (x : Int) : Int := (x + 2 ^ 31) % 2 ^ 32 - 2 ^ 31

/-- Reduction of a natural number to the range of a Go `uint32`. -/
def wrapUint32 (x : Nat) : Nat := x % 2 ^ 32

/-- The constant `math.MaxInt32`. -/
def MaxInt32 : Int := 2 ^ 31 - 1

namespace dict

/-- The constant `prime32` of `concurrent.go`. -/
def prime32 : Nat := 16777619

/-- The function `computeCapacity` of `concurrent.go`, on a 64-bit `int`. -/
def computeCapacity (param : Int) : Int :=
  if param ≤ 16 then 16
  else
    let n := wrapInt64 (param - 1)
    let n := Int.lor n (Int.shiftRight n 1)
    let n := Int.lor n (Int.shiftRight n 2)
    let n := Int.lor n (Int.shiftRight n 4)
    let n := Int.lor n (Int.shiftRight n 8)
    let n := Int.lor n (Int.shiftRight n 16)
    if n < 0 then MaxInt32 else wrapInt64 (n + 1)

/-- The five statements `n |= n >> 1` ... `n |= n >> 16` of `computeCapacity`, read on a
non-negative `n`. -/
def orShifts (n : Nat) : Nat :=
  let n := n ||| (n >>> 1)
  let n := n ||| (n >>> 2)
  let n := n ||| (n >>> 4)
  let n := n ||| (n >>> 8)
  let n := n ||| (n >>> 16)
  n

/-- The 32-bit FNV-1a hash as the specification words it: start from the offset basis
2166136261; for each byte in order, first XOR the byte into the hash, then multiply by the
prime 16777619 modulo `2^32`. -/
def fnv1aSpec (key : GoString) : Nat :=
  key.foldl (fun hash b => ((hash ^^^ b.val) * 16777619) % 2 ^ 32) 2166136261

/-- The 32-bit FNV-1 hash: start from the offset basis 2166136261; for each byte in order,
first multiply the hash by the prime 16777619 modulo `2^32`, then XOR the byte into it. -/
def fnv1Spec (key : GoString) : Nat :=
  key.foldl (fun hash b => ((hash * 16777619) % 2 ^ 32) ^^^ b.val) 2166136261

/-- The loop of `fnv32`: `for i := 0; i < len(key); i++ { hash *= prime32; hash ^= uint32(key[i]) }`,
entered with loop counter `i` and accumulator `hash`; `fuel` bounds the number of iterations. -/
def fnv32Loop (key : GoString) : Nat → Nat → Nat → Nat
  | 0, _, hash => hash
  | fuel + 1, i, hash =>
    if h : i < key.length then
      let hash := wrapUint32 (hash * prime32)
      let hash := hash ^^^ (key.get ⟨i, h⟩).val
      fnv32Loop key fuel (i + 1) hash
    else hash

/-- The function `fnv32` of `concurrent.go`; the loop runs `len(key)` times. -/
def fnv32 (key : GoString) : Nat :=
  fnv32Loop key key.length 0 2166136261

/-- The arithmetic of `spread`: `tableSize := uint32(len(dict.table)); (tableSize - 1) & hashCode`,
for a table of length `len`. -/
def spreadIndex (len : Nat) (hashCode : Nat) : Nat :=
  let tableSize := wrapUint32 len
  (wrapUint32 (tableSize + 2 ^ 32 - 1)) &&& hashCode

/-- A Go `map[string]interface{}` with values of type `V`: an association list that
holds at most one entry per key. -/
abbrev GoMap (V : Type) := List (GoString × V)

/-- The map read `val, ok := m[key]`: `some val` when `ok`, `none` otherwise. -/
def GoMap.get? {V : Type} (m : GoMap V) (key : GoString) : Option V :=
  match m with
  | [] => none
  | (k, v) :: rest => if k = key then some v else GoMap.get? rest key

/-- The map write `m[key] = val`. -/
def GoMap.set {V : Type} (m : GoMap V) (key : GoString) (val : V) : GoMap V :=
  match m with
  | [] => [(key, val)]
  | (k, v) :: rest => if k = key then (key, val) :: rest else (k, v) :: GoMap.set rest key val

/-- The builtin `delete(m, key)`. -/
def GoMap.delete {V : Type} (m : GoMap V) (key : GoString) : GoMap V :=
  match m with
  | [] => []
  | (k, v) :: rest => if k = key then GoMap.delete rest key else (k, v) :: GoMap.delete rest key

/-- The struct `shard`; the mutex is not part of the sequential state. -/
structure shard (V : Type) where
  m : GoMap V

/-- The struct `ConcurrentDict`. `table = none` is the nil slice. -/
structure ConcurrentDict (V : Type) where
  table : Option (List (shard V))
  count : Int
  shardCount : Int

/-- The builtin `len(dict.table)`; a nil slice has length 0. -/
def ConcurrentDict.tableLen {V : Type} (dict : ConcurrentDict V) : Nat :=
  match dict.table with
  | none => 0
  | some t => t.length

/-- The function `MakeConcurrent`: `computeCapacity(shardCount)` shards, each with an empty
map, and counter 0. `make([]*shard, shardCount)` panics on a negative length; memory is
taken to be unbounded, so it returns for every other length. -/
def MakeConcurrent {V : Type} (shardCount : Int) : Except String (ConcurrentDict V) :=
  let shardCount := computeCapacity shardCount
  if shardCount < 0 then throw "runtime error: makeslice: len out of range"
  else
    pure { table := some (List.replicate shardCount.toNat { m := [] }),
           count := 0,
           shardCount := shardCount }

/-- The method `spread`: panics when `dict.table != nil`. -/
def ConcurrentDict.spread {V : Type} (dict : ConcurrentDict V) (hashCode : Nat) :
    Except String Nat :=
  if dict.table.isSome then throw "table is nil"
  else pure (spreadIndex dict.tableLen hashCode)

/-- The method `getShard`: panics when `dict.table != nil`; the slice access
`dict.table[index]` panics when `index` is not below the length. -/
def ConcurrentDict.getShard {V : Type} (dict : ConcurrentDict V) (index : Nat) :
    Except String (shard V) :=
  if dict.table.isSome then throw "table is nil"
  else
    match (dict.table.getD [])[index]? with
    | some s => pure s
    | none => throw "runtime error: index out of range"

/-- The effect on the dictionary of a write through the pointer `dict.table[index]`. -/
def ConcurrentDict.setShard {V : Type} (dict : ConcurrentDict V) (index : Nat) (s : shard V) :
    ConcurrentDict V :=
  { dict with table := dict.table.map (fun t => t.set index s) }

/-- The method `Get`: `some val` stands for `(val, true)`, `none` for `(nil, false)`. -/
def ConcurrentDict.Get {V : Type} (dict : ConcurrentDict V) (key : GoString) :
    Except String (Option V) :=
  if dict.table.isSome then throw "table is nil"
  else do
    let hash := fnv32 key
    let index ← dict.spread hash
    let shard ← dict.getShard index
    pure (shard.m.get? key)

/-- The method `Len`. -/
def ConcurrentDict.Len {V : Type} (dict : ConcurrentDict V) : Except String Int :=
  if dict.table.isSome then throw "table is nil"
  else pure dict.count

/-- The method `addCount`: `atomic.AddInt32(&dict.count, 1)`. -/
def ConcurrentDict.addCount {V : Type} (dict : ConcurrentDict V) : ConcurrentDict V :=
  { dict with count := wrapInt32 (dict.count + 1) }

/-- The method `decreaseCount`: `atomic.AddInt32(&dict.count, -1)`. -/
def ConcurrentDict.decreaseCount {V : Type} (dict : ConcurrentDict V) : ConcurrentDict V :=
  { dict with count := wrapInt32 (dict.count - 1) }

/-- The locked section of `Put` (from `if _, ok := shard.m[key]; ok` to the end) on the
map of the target shard: the result, the map afterwards, and whether `addCount` is called. -/
def putLocked {V : Type} (m : GoMap V) (key : GoString) (val : V) : Int × GoMap V × Bool :=
  match m.get? key with
  | some _ => (0, m, false)
  | none => (1, m.set key val, true)

/-- The method `Put`, with the dictionary after the call. The receiver is a non-nil
pointer here, so the guard `dict == nil` does not fire. -/
def ConcurrentDict.Put {V : Type} (dict : ConcurrentDict V) (key : GoString) (val : V) :
    Except String (Int × ConcurrentDict V) := do
  let hash := fnv32 key
  let index ← dict.spread hash
  let shard ← dict.getShard index
  let (result, m, added) := putLocked shard.m key val
  let dict := dict.setShard index { m := m }
  pure (result, if added then dict.addCount else dict)

/-- The method `PutIfExists`, with the dictionary after the call. -/
def ConcurrentDict.PutIfExists {V : Type} (dict : ConcurrentDict V) (key : GoString) (val : V) :
    Except String (Int × ConcurrentDict V) :=
  if dict.table.isSome then throw "table is nil"
  else do
    let hash := fnv32 key
    let index ← dict.spread hash
    let shard ← dict.getShard index
    match shard.m.get? key with
    | some _ => pure (1, dict.setShard index { m := shard.m.set key val })
    | none => pure (0, dict)

/-- The method `Remove`, with the dictionary after the call. -/
def ConcurrentDict.Remove {V : Type} (dict : ConcurrentDict V) (key : GoString) :
    Except String (Int × ConcurrentDict V) :=
  if dict.table.isSome then throw "table is nil"
  else do
    let hash := fnv32 key
    let index ← dict.spread hash
    let shard ← dict.getShard index
    match shard.m.get? key with
    | some _ =>
      pure (1, (dict.setShard index { m := shard.m.delete key }).decreaseCount)
    | none => pure (0, dict)

/-- The dictionary states that the program can reach: a dictionary returned by
`MakeConcurrent`, then any finite sequence of `Put`, `PutIfExists` and `Remove` calls that
return. -/
inductive Reachable {V : Type} : ConcurrentDict V → Prop
  | make {n : Int} {d : ConcurrentDict V} : MakeConcurrent n = .ok d → Reachable d
  | put {d d1 : ConcurrentDict V} {key : GoString} {val : V} {r : Int} :
      Reachable d → d.Put key val = .ok (r, d1) → Reachable d1
  | putIfExists {d d1 : ConcurrentDict V} {key : GoString} {val : V} {r : Int} :
      Reachable d → d.PutIfExists key val = .ok (r, d1) → Reachable d1
  | remove {d d1 : ConcurrentDict V} {key : GoString} {r : Int} :
      Reachable d → d.Remove key = .ok (r, d1) → Reachable d1

/-- The dictionary that `MakeConcurrent` builds for a hint of at most 16: 16 empty shards. -/
def dict16 (V : Type) : ConcurrentDict V :=
  { table := some (List.replicate 16 { m := [] }), count := 0, shardCount := 16 }

/-- The sum over all shards of the number of entries of the shard map. -/
def ConcurrentDict.entryCount {V : Type} (dict : ConcurrentDict V) : Nat :=
  ((dict.table.getD []).map (fun s => s.m.length)).sum

end dict

namespace lock

/-- The constant `prime32` of `lock_map.go`. -/
def prime32 : Nat := 16777619

/-- The loop of `fnv32` in `lock_map.go`:
`for i := 0; i < len(key); i++ { hash *= prime32; hash ^= uint32(key[i]) }`,
entered with loop counter `i` and accumulator `hash`; `fuel` bounds the number of iterations. -/
def fnv32Loop (key : GoString) : Nat → Nat → Nat → Nat
  | 0, _, hash => hash
  | fuel + 1, i, hash =>
    if h : i < key.length then
      let hash := wrapUint32 (hash * prime32)
      let hash := hash ^^^ (key.get ⟨i, h⟩).val
      fnv32Loop key fuel (i + 1) hash
    else hash

/-- The function `fnv32` of `lock_map.go`; the loop runs `len(key)` times. -/
def fnv32 (key : GoString) : Nat :=
  fnv32Loop key key.length 0 2166136261

/-- The state of a `sync.RWMutex`: whether a writer holds it, and how many readers hold it.
The zero value is the free mutex. -/
structure RWMutex where
  writer : Bool
  readers : Nat
  deriving DecidableEq

/-- The zero value `sync.RWMutex{}`: the free mutex. -/
def RWMutex.free : RWMutex := { writer := false, readers := 0 }

/-- What a call on a `sync.RWMutex` does to the caller: it returns and leaves the mutex in a
new state, it blocks until another holder releases, or it ends the program with a fatal
error. -/
inductive Effect where
  | ok (m : RWMutex)
  | blocks
  | fatal (msg : String)
  deriving DecidableEq

/-- The library method `(*sync.RWMutex).Lock`: waits until no writer and no reader holds
the mutex. -/
def RWMutex.Lock (m : RWMutex) : Effect :=
  if m.writer = true ∨ 0 < m.readers then .blocks else .ok { writer := true, readers := 0 }

/-- The library method `(*sync.RWMutex).RLock`: waits until no writer holds the mutex. -/
def RWMutex.RLock (m : RWMutex) : Effect :=
  if m.writer = true then .blocks else .ok { m with readers := m.readers + 1 }

/-- The library method `(*sync.RWMutex).Unlock`: a fatal error when the mutex is not locked
for writing. -/
def RWMutex.Unlock (m : RWMutex) : Effect :=
  if m.writer = true then .ok { m with writer := false }
  else .fatal "fatal error: sync: Unlock of unlocked RWMutex"

/-- The library method `(*sync.RWMutex).RUnlock`: a fatal error when no reader holds the
mutex. -/
def RWMutex.RUnlock (m : RWMutex) : Effect :=
  if 0 < m.readers then .ok { m with readers := m.readers - 1 }
  else .fatal "fatal error: sync: RUnlock of unlocked RWMutex"

/-- The four mutex methods that the lock table calls. -/
inductive Op where
  | Lock
  | RLock
  | Unlock
  | RUnlock
  deriving DecidableEq

/-- One call `locks.table[slot].op()`. -/
structure Call where
  slot : Nat
  op : Op
  deriving DecidableEq

/-- What a method of `Locks` does: the mutex calls it makes, in order, and the panic that
ends it, if any. -/
structure Trace where
  calls : List Call
  panic : Option String
  deriving DecidableEq

/-- The struct `Locks`: the table of mutexes. A nil table behaves as the empty one. -/
structure Locks where
  table : List RWMutex

/-- The function `Make`: `tableSize` free mutexes. `make([]*sync.RWMutex, tableSize)` panics
on a negative length. -/
def Make (tableSize : Int) : Except String Locks :=
  if tableSize < 0 then throw "runtime error: makeslice: len out of range"
  else pure { table := List.replicate tableSize.toNat RWMutex.free }

/-- The method `spread` of `lock_map.go`. The receiver is a non-nil pointer here, so the
guard `locks == nil` does not fire. -/
def Locks.spread (locks : Locks) (hashCode : Nat) : Nat :=
  let tableSize := wrapUint32 locks.table.length
  (wrapUint32 (tableSize + 2 ^ 32 - 1)) &&& hashCode

/-- The statements `mutex := locks.table[index]; mutex.op()`: the slice access panics when
`index` is not below the length of the table. -/
def Locks.callSlot (locks : Locks) (index : Nat) (op : Op) : Trace :=
  if index < locks.table.length then { calls := [{ slot := index, op := op }], panic := none }
  else { calls := [], panic := some "runtime error: index out of range" }

/-- The method `Lock`. -/
def Locks.Lock (locks : Locks) (key : GoString) : Trace :=
  let hashCode := fnv32 key
  let index := locks.spread hashCode
  locks.callSlot index .Lock

/-- The method `RLock`. -/
def Locks.RLock (locks : Locks) (key : GoString) : Trace :=
  let hashCode := fnv32 key
  let index := locks.spread hashCode
  locks.callSlot index .RLock

/-- The method `UnLock`. -/
def Locks.UnLock (locks : Locks) (key : GoString) : Trace :=
  let index := locks.spread (fnv32 key)
  locks.callSlot index .Unlock

/-- The method `RUnLock`. -/
def Locks.RUnLock (locks : Locks) (key : GoString) : Trace :=
  let index := locks.spread (fnv32 key)
  locks.callSlot index .RUnlock

/-- The library function `sort.Slice(x, less)` on a slice of `uint32`: it reorders `x` so
that no element is `less` than an element that stands before it. -/
def sortSlice (less : Nat → Nat → Bool) (x : List Nat) : List Nat :=
  x.insertionSort (fun a b => less b a = false)

/-- The first loop of `toLockIndices`: the set `indexMap` of the slot indices of the keys,
as the list of its elements. -/
def Locks.indexMap (locks : Locks) (keys : List GoString) : List Nat :=
  keys.foldl (fun indexMap key =>
    let hashCode := fnv32 key
    let index := locks.spread hashCode
    indexMap.insert index) []

/-- The method `toLockIndices`. The second loop ranges over `indexMap` in an order that Go
leaves unspecified; the list order of `indexMap` stands for it, and the sorted result does
not depend on it (`sortSlice_perm`). -/
def Locks.toLockIndices (locks : Locks) (keys : List GoString) (reverse : Bool) : List Nat :=
  let indexMap := locks.indexMap keys
  let indices := indexMap
  sortSlice (fun a b => if reverse then decide (a < b) else decide (a > b)) indices

/-- The loop `for _, index := range indices { mutex := locks.table[index]; mutex.op() }`,
where `op` may depend on the index. -/
def Locks.forIndices (locks : Locks) (op : Nat → Op) : List Nat → Trace
  | [] => { calls := [], panic := none }
  | index :: rest =>
    if index < locks.table.length then
      let t := Locks.forIndices locks op rest
      { calls := { slot := index, op := op index } :: t.calls, panic := t.panic }
    else { calls := [], panic := some "runtime error: index out of range" }

/-- The method `RLocks`. -/
def Locks.RLocks (locks : Locks) (keys : List GoString) : Trace :=
  let indices := locks.toLockIndices keys false
  locks.forIndices (fun _ => .RLock) indices

/-- The method `UnLocks`. -/
def Locks.UnLocks (locks : Locks) (keys : List GoString) : Trace :=
  let indices := locks.toLockIndices keys true
  locks.forIndices (fun _ => .Unlock) indices

/-- The method `RUnLocks`. -/
def Locks.RUnLocks (locks : Locks) (keys : List GoString) : Trace :=
  let indices := locks.toLockIndices keys true
  locks.forIndices (fun _ => .RUnlock) indices

/-- The method `RWLocks`. -/
def Locks.RWLocks (locks : Locks) (writeKeys readKeys : List GoString) : Trace :=
  let keys := writeKeys ++ readKeys
  let indices := locks.toLockIndices keys false
  let writeIndices := locks.toLockIndices writeKeys false
  let writeIndexSet := writeIndices.foldl (fun set index => set.insert index) []
  locks.forIndices (fun index => if index ∈ writeIndexSet then .Lock else .RLock) indices

/-- The method `RWUnLocks`. -/
def Locks.RWUnLocks (locks : Locks) (writeKeys readKeys : List GoString) : Trace :=
  let keys := writeKeys ++ readKeys
  let indices := locks.toLockIndices keys false
  let writeIndices := locks.toLockIndices writeKeys false
  let writeIndexSet := writeIndices.foldl (fun set index => set.insert index) []
  locks.forIndices (fun index => if index ∈ writeIndexSet then .Unlock else .RUnlock) indices

/-- The sequence of slots that a trace touches. -/
def Trace.slots (t : Trace) : List Nat := t.calls.map Call.slot

/-- In the list `l`, the first occurrence of `i` comes before the first occurrence of `j`. -/
def before (l : List Nat) (i j : Nat) : Prop := l.indexOf i < l.indexOf j

set_option linter.dupNamespace false in
/-- The method `Locks`. -/
def Locks.Locks (locks : Locks) (keys : List GoString) : Trace :=
  let indices := locks.toLockIndices keys false
  locks.forIndices (fun _ => .Lock) indices

/-- The traces of the multi-key acquisition methods `Locks`, `RLocks` and `RWLocks` of a
lock table. -/
inductive IsAcquisition (locks : Locks) : Trace → Prop
  | ofLocks (keys : List GoString) : IsAcquisition locks (locks.Locks keys)
  | ofRLocks (keys : List GoString) : IsAcquisition locks (locks.RLocks keys)
  | ofRWLocks (writeKeys readKeys : List GoString) :
      IsAcquisition locks (locks.RWLocks writeKeys readKeys)

/-- A lock table of 16 free slots. -/
def table16 : Locks := { table := List.replicate 16 RWMutex.free }

/-- The mutex method that a call invokes. -/
def RWMutex.call (m : RWMutex) : Op → Effect
  | .Lock => m.Lock
  | .RLock => m.RLock
  | .Unlock => m.Unlock
  | .RUnlock => m.RUnlock

/-- What a sequence of mutex calls by one caller does to the table: it runs to the end and
leaves the table in a new state, it blocks, or it ends with a fatal error. -/
inductive Outcome where
  | done (table : List RWMutex)
  | blocked
  | fatal (msg : String)
  deriving DecidableEq

/-- One call `table[slot].op()` on the states of the mutexes of the table. -/
def applyCall (table : List RWMutex) (c : Call) : Outcome :=
  match table[c.slot]? with
  | none => .fatal "runtime error: index out of range"
  | some m =>
    match m.call c.op with
    | .ok m1 => .done (table.set c.slot m1)
    | .blocks => .blocked
    | .fatal msg => .fatal msg

/-- The calls of a list made in order by one caller, nobody else touching the table. -/
def run (table : List RWMutex) : List Call → Outcome
  | [] => .done table
  | c :: rest =>
    match applyCall table c with
    | .done t => run t rest
    | .blocked => .blocked
    | .fatal msg => .fatal msg

/-- The release that matches an acquisition: `Unlock` for `Lock`, `RUnlock` for `RLock`. -/
def Op.release : Op → Op
  | .Lock => .Unlock
  | .RLock => .RUnlock
  | .Unlock => .Unlock
  | .RUnlock => .RUnlock

/-- The release call that matches an acquisition call: the same slot, the matching method. -/
def Call.release (c : Call) : Call := { slot := c.slot, op := c.op.release }

/-- The state of a free mutex after the acquisition `op` returned. -/
def lockedState : Op → RWMutex
  | .Lock => { writer := true, readers := 0 }
  | _ => { writer := false, readers := 1 }

/-- The table after the acquisitions `l` were made on slots that were free. -/
def acquired (table : List RWMutex) (l : List Call) : List RWMutex :=
  l.foldl (fun t c => t.set c.slot (lockedState c.op)) table

/-- Two goroutines that share one lock table: the states of the mutexes and, for each
goroutine, the mutex calls that it has still to make, in order. -/
structure System where
  table : List RWMutex
  a : List Call
  b : List Call

/-- One step of the system: one of the two goroutines makes its next mutex call and the
call returns. While the call would block, the goroutine cannot step. -/
inductive Step : System → System → Prop
  | stepA (table : List RWMutex) (c : Call) (rest b : List Call) (t1 : List RWMutex) :
      applyCall table c = .done t1 →
      Step { table := table, a := c :: rest, b := b } { table := t1, a := rest, b := b }
  | stepB (table : List RWMutex) (c : Call) (a rest : List Call) (t1 : List RWMutex) :
      applyCall table c = .done t1 →
      Step { table := table, a := a, b := c :: rest } { table := t1, a := a, b := rest }

/-- The mutex calls of a goroutine that acquires with one of the multi-key methods and
later releases with the matching method, given as the pair of the acquisition calls and
the release calls. -/
inductive IsSession (locks : Locks) : List Call → List Call → Prop
  | ofLocks (keys : List GoString) :
      IsSession locks (locks.Locks keys).calls (locks.UnLocks keys).calls
  | ofRLocks (keys : List GoString) :
      IsSession locks (locks.RLocks keys).calls (locks.RUnLocks keys).calls
  | ofRWLocks (writeKeys readKeys : List GoString) :
      IsSession locks (locks.RWLocks writeKeys readKeys).calls
        (locks.RWUnLocks writeKeys readKeys).calls

/-- The progress of one goroutine through its session: the acquisitions and the releases
that it has still to make. -/
structure Thread where
  acq : List Call
  rel : List Call

/-- The goroutine holds slot `i` and will release it with the method `op`: the release is
still to be made and the acquisition is not. -/
def Thread.holds (t : Thread) (i : Nat) (op : Op) : Bool :=
  decide (({ slot := i, op := op } : Call) ∈ t.rel) && !decide (i ∈ t.acq.map Call.slot)

/-- The state of the mutex of slot `i` when the two goroutines hold what their progress
says. -/
def mutexOf (x y : Thread) (i : Nat) : RWMutex :=
  { writer := x.holds i .Unlock || y.holds i .Unlock,
    readers := (if x.holds i .RUnlock then 1 else 0) + (if y.holds i .RUnlock then 1 else 0) }

/-- The progress of a goroutine is that of a session on a table of `n` slots: acquisitions
in strictly descending slot order, each with its matching release still to come, releases
on distinct slots, and every slot already held above all the slots still to acquire. -/
structure Thread.WF (n : Nat) (t : Thread) : Prop where
  acq_op : ∀ c, c ∈ t.acq → c.op = .Lock ∨ c.op = .RLock
  rel_op : ∀ c, c ∈ t.rel → c.op = .Unlock ∨ c.op = .RUnlock
  acq_sorted : (t.acq.map Call.slot).Sorted (· > ·)
  rel_nodup : (t.rel.map Call.slot).Nodup
  acq_rel : ∀ c, c ∈ t.acq → c.release ∈ t.rel
  held_gt : ∀ r, r ∈ t.rel → r.slot ∉ t.acq.map Call.slot → ∀ c, c ∈ t.acq → c.slot < r.slot
  lt : ∀ c, c ∈ t.rel → c.slot < n

/-- The invariant of the two-goroutine system: the remaining calls are those of two sessions
in progress, the mutexes are in the state that the progress says, and a slot held
exclusively by one goroutine is not held by the other. -/
structure Inv (s : System) (x y : Thread) : Prop where
  ha : s.a = x.acq ++ x.rel
  hb : s.b = y.acq ++ y.rel
  wx : x.WF s.table.length
  wy : y.WF s.table.length
  tbl : ∀ i, i < s.table.length → s.table[i]? = some (mutexOf x y i)
  excl_x : ∀ i, x.holds i .Unlock = true →
    y.holds i .Unlock = false ∧ y.holds i .RUnlock = false
  excl_y : ∀ i, y.holds i .Unlock = true →
    x.holds i .Unlock = false ∧ x.holds i .RUnlock = false

/-- The start of two goroutines on 16 free slots: the first calls `Locks("x", "y")` and later
`UnLocks("x", "y")`, the second `Locks("y", "x")` and later `UnLocks("y", "x")`. -/
def startXY : System :=
  { table := table16.table,
    a := (table16.Locks [[120], [121]]).calls ++ (table16.UnLocks [[120], [121]]).calls,
    b := (table16.Locks [[121], [120]]).calls ++ (table16.UnLocks [[121], [120]]).calls }

end lock

/-! ## The guards of the dictionary operations -/

namespace dict

theorem spread_of_isSome {V : Type} (d : ConcurrentDict V) (h : d.table.isSome = true)
    (hashCode : Nat) : d.spread hashCode = .error "table is nil" := by
  simp [ConcurrentDict.spread, h, throw, throwThe, MonadExceptOf.throw]

theorem Put_of_isSome {V : Type} (d : ConcurrentDict V) (h : d.table.isSome = true)
    (key : GoString) (val : V) : d.Put key val = .error "table is nil" := by
  simp [ConcurrentDict.Put, spread_of_isSome d h, bind, Except.bind]

theorem PutIfExists_of_isSome {V : Type} (d : ConcurrentDict V) (h : d.table.isSome = true)
    (key : GoString) (val : V) : d.PutIfExists key val = .error "table is nil" := by
  simp [ConcurrentDict.PutIfExists, h, throw, throwThe, MonadExceptOf.throw]

theorem Remove_of_isSome {V : Type} (d : ConcurrentDict V) (h : d.table.isSome = true)
    (key : GoString) : d.Remove key = .error "table is nil" := by
  simp [ConcurrentDict.Remove, h, throw, throwThe, MonadExceptOf.throw]

theorem Get_of_isSome {V : Type} (d : ConcurrentDict V) (h : d.table.isSome = true)
    (key : GoString) : d.Get key = .error "table is nil" := by
  simp [ConcurrentDict.Get, h, throw, throwThe, MonadExceptOf.throw]

theorem Len_of_isSome {V : Type} (d : ConcurrentDict V) (h : d.table.isSome = true) :
    d.Len = .error "table is nil" := by
  simp [ConcurrentDict.Len, h, throw, throwThe, MonadExceptOf.throw]

theorem getShard_of_none {V : Type} (d : ConcurrentDict V) (h : d.table = none) (index : Nat) :
    d.getShard index = .error "runtime error: index out of range" := by
  simp [ConcurrentDict.getShard, h, throw, throwThe, MonadExceptOf.throw]

theorem spread_of_none {V : Type} (d : ConcurrentDict V) (h : d.table = none) (hashCode : Nat) :
    d.spread hashCode = .ok (spreadIndex 0 hashCode) := by
  simp [ConcurrentDict.spread, ConcurrentDict.tableLen, h, pure, Except.pure]

theorem MakeConcurrent_ok {V : Type} {n : Int} {d : ConcurrentDict V}
    (h : MakeConcurrent n = .ok d) :
    d = { table := some (List.replicate (computeCapacity n).toNat { m := [] }),
          count := 0, shardCount := computeCapacity n } := by
  unfold MakeConcurrent at h
  by_cases hneg : computeCapacity n < 0
  · simp [hneg, throw, throwThe, MonadExceptOf.throw] at h
  · simp only [hneg, if_false, pure, Except.pure] at h
    cases h; rfl

theorem MakeConcurrent_isSome {V : Type} {n : Int} {d : ConcurrentDict V}
    (h : MakeConcurrent n = .ok d) : d.table.isSome = true := by
  rw [MakeConcurrent_ok h]; rfl

theorem MakeConcurrent_small {V : Type} : MakeConcurrent 0 = .ok (dict16 V) := rfl

theorem Reachable.table_isSome {V : Type} {d : ConcurrentDict V} (hd : Reachable d) :
    d.table.isSome = true := by
  induction hd with
  | make hmk => exact MakeConcurrent_isSome hmk
  | put _ hstep ih => rw [Put_of_isSome _ ih] at hstep; cases hstep
  | putIfExists _ hstep ih => rw [PutIfExists_of_isSome _ ih] at hstep; cases hstep
  | remove _ hstep ih => rw [Remove_of_isSome _ ih] at hstep; cases hstep

theorem Reachable.eq_make {V : Type} {d : ConcurrentDict V} (hd : Reachable d) :
    ∃ n : Int, MakeConcurrent n = .ok d := by
  induction hd with
  | make hmk => exact ⟨_, hmk⟩
  | put hprev hstep _ => rw [Put_of_isSome _ hprev.table_isSome] at hstep; cases hstep
  | putIfExists hprev hstep _ =>
    rw [PutIfExists_of_isSome _ hprev.table_isSome] at hstep; cases hstep
  | remove hprev hstep _ => rw [Remove_of_isSome _ hprev.table_isSome] at hstep; cases hstep

theorem entryCount_MakeConcurrent {V : Type} {n : Int} {d : ConcurrentDict V}
    (h : MakeConcurrent n = .ok d) : d.entryCount = 0 ∧ d.count = 0 := by
  rw [MakeConcurrent_ok h]
  simp [ConcurrentDict.entryCount]

end dict

/-! ## Claims on the dictionary operations -/

namespace dict

/-- C1: on every dictionary reachable from `MakeConcurrent`, `Put(key, val)` does not return 1:
for every key and value it panics with "table is nil" in `spread`, before the shard map
is read, so no value is stored and `Len()` is not incremented. -/
theorem Put_reachable_panics {V : Type} (d : ConcurrentDict V) (hd : Reachable d)
    (key : GoString) (val : V) : d.Put key val = .error "table is nil" :=
  Put_of_isSome d hd.table_isSome key val

/-- Witness of `Put_reachable_panics`: the test's `MakeConcurrent(0)` and `Put("k0", 0)`. -/
theorem Put_reachable_panics_witness :
    Reachable (dict16 Int) ∧ (dict16 Int).Put [107, 48] 0 = .error "table is nil" :=
  ⟨Reachable.make MakeConcurrent_small,
    Put_reachable_panics _ (Reachable.make MakeConcurrent_small) [107, 48] 0⟩

/-- C2: in the scenario `MakeConcurrent(4); Put("a", 1)` the first `Put` already panics with
"table is nil"; and the locked section of `Put`, run on a shard map that binds "a" to 1
with the new value 2, returns 0, asks for no counter change and leaves "a" bound to 1:
the stored value is not replaced. -/
theorem Put_present_scenario :
    (MakeConcurrent 4 >>= fun d => d.Put [97] (1 : Int)) = .error "table is nil" ∧
      putLocked ([([97], 1)] : GoMap Int) [97] 2 = (0, [([97], 1)], false) ∧
      GoMap.get? (putLocked ([([97], 1)] : GoMap Int) [97] 2).2.1 [97] = some 1 := by
  refine ⟨rfl, ?_, ?_⟩ <;> decide

/-- C3: the guards fire on the initialized table and not on the nil one. On every dictionary
returned by `MakeConcurrent(n)`, `Get`, `Len`, `Put`, `PutIfExists` and `Remove` all panic
with "table is nil"; on a dictionary whose table is nil, `Len` returns the counter, and
`Get`, `Put`, `PutIfExists` and `Remove` pass every guard and panic in the slice access
`dict.table[index]` of `getShard`. -/
theorem guards_inverted {V : Type} (n : Int) (d : ConcurrentDict V)
    (hd : MakeConcurrent n = .ok d) (key : GoString) (val : V) (count shardCount : Int) :
    (d.Get key = .error "table is nil" ∧
      d.Len = .error "table is nil" ∧
      d.Put key val = .error "table is nil" ∧
      d.PutIfExists key val = .error "table is nil" ∧
      d.Remove key = .error "table is nil") ∧
    (({ table := none, count := count, shardCount := shardCount } : ConcurrentDict V).Len
        = .ok count ∧
      ({ table := none, count := count, shardCount := shardCount } : ConcurrentDict V).Get key
        = .error "runtime error: index out of range" ∧
      ({ table := none, count := count, shardCount := shardCount } : ConcurrentDict V).Put key val
        = .error "runtime error: index out of range" ∧
      ({ table := none, count := count, shardCount := shardCount } : ConcurrentDict V).PutIfExists
        key val = .error "runtime error: index out of range" ∧
      ({ table := none, count := count, shardCount := shardCount } : ConcurrentDict V).Remove key
        = .error "runtime error: index out of range") := by
  have hs := MakeConcurrent_isSome hd
  refine ⟨⟨Get_of_isSome d hs key, Len_of_isSome d hs, Put_of_isSome d hs key val,
    PutIfExists_of_isSome d hs key val, Remove_of_isSome d hs key⟩, rfl, ?_, ?_, ?_, ?_⟩
  · simp [ConcurrentDict.Get, spread_of_none, getShard_of_none, bind, Except.bind]
  · simp [ConcurrentDict.Put, spread_of_none, getShard_of_none, bind, Except.bind]
  · simp [ConcurrentDict.PutIfExists, spread_of_none, getShard_of_none, bind, Except.bind]
  · simp [ConcurrentDict.Remove, spread_of_none, getShard_of_none, bind, Except.bind]

/-- Witness of `guards_inverted`: `MakeConcurrent(0)`, the key "a", the value 1, and the zero
value of `ConcurrentDict`. -/
theorem guards_inverted_witness :
    MakeConcurrent 0 = .ok (dict16 Int) ∧
    ((dict16 Int).Get [97] = .error "table is nil" ∧
      (dict16 Int).Len = .error "table is nil" ∧
      (dict16 Int).Put [97] 1 = .error "table is nil" ∧
      (dict16 Int).PutIfExists [97] 1 = .error "table is nil" ∧
      (dict16 Int).Remove [97] = .error "table is nil") ∧
    (({ table := none, count := 0, shardCount := 0 } : ConcurrentDict Int).Len = .ok 0 ∧
      ({ table := none, count := 0, shardCount := 0 } : ConcurrentDict Int).Get [97]
        = .error "runtime error: index out of range" ∧
      ({ table := none, count := 0, shardCount := 0 } : ConcurrentDict Int).Put [97] 1
        = .error "runtime error: index out of range" ∧
      ({ table := none, count := 0, shardCount := 0 } : ConcurrentDict Int).PutIfExists [97] 1
        = .error "runtime error: index out of range" ∧
      ({ table := none, count := 0, shardCount := 0 } : ConcurrentDict Int).Remove [97]
        = .error "runtime error: index out of range") :=
  ⟨MakeConcurrent_small, guards_inverted 0 (dict16 Int) MakeConcurrent_small [97] 1 0 0⟩

/-- C4: in every reachable dictionary state the counter field equals the sum of the sizes of
the shard maps (both are 0, because no mutating call ever returns), but `Len()` does not
return it: `Len()` panics with "table is nil", also right after construction. -/
theorem Len_reachable_panics {V : Type} (d : ConcurrentDict V) (hd : Reachable d) :
    d.Len = .error "table is nil" ∧ d.count = (d.entryCount : Int) ∧ d.count = 0 := by
  obtain ⟨n, hn⟩ := hd.eq_make
  obtain ⟨h1, h2⟩ := entryCount_MakeConcurrent hn
  exact ⟨Len_of_isSome d hd.table_isSome, by rw [h1, h2]; rfl, h2⟩

/-- Witness of `Len_reachable_panics`: the dictionary built by `MakeConcurrent(0)`. -/
theorem Len_reachable_panics_witness :
    Reachable (dict16 Int) ∧
      ((dict16 Int).Len = .error "table is nil" ∧
        (dict16 Int).count = ((dict16 Int).entryCount : Int) ∧ (dict16 Int).count = 0) :=
  ⟨Reachable.make MakeConcurrent_small, Len_reachable_panics _ (Reachable.make MakeConcurrent_small)⟩

/-- C5: `Remove(key)` returns neither 1 nor 0 on any dictionary value: when the table is
initialized it panics with "table is nil", when the table is nil it panics in the slice
access of `getShard`. -/
theorem Remove_always_panics {V : Type} (d : ConcurrentDict V) (key : GoString) :
    d.Remove key = .error
      (if d.table.isSome then "table is nil" else "runtime error: index out of range") := by
  cases h : d.table with
  | some t => exact Remove_of_isSome d (by simp [h]) key
  | none =>
    simp [ConcurrentDict.Remove, h, spread_of_none, getShard_of_none, bind, Except.bind]

/-- C6: `PutIfExists(key, val)` returns neither 1 nor 0 on any dictionary value: when the
table is initialized it panics with "table is nil", when the table is nil it panics in the
slice access of `getShard`. -/
theorem PutIfExists_always_panics {V : Type} (d : ConcurrentDict V) (key : GoString) (val : V) :
    d.PutIfExists key val = .error
      (if d.table.isSome then "table is nil" else "runtime error: index out of range") := by
  cases h : d.table with
  | some t => exact PutIfExists_of_isSome d (by simp [h]) key val
  | none =>
    simp [ConcurrentDict.PutIfExists, h, spread_of_none, getShard_of_none, bind, Except.bind]

end dict

/-! ## The capacity computation -/

namespace dict

theorem wrapInt64_of_range {x : Int} (hlo : -2 ^ 63 ≤ x) (hhi : x < 2 ^ 63) : wrapInt64 x = x := by
  unfold wrapInt64
  omega

theorem lor_shiftRight_natCast (a s : Nat) :
    Int.lor (a : Int) (Int.shiftRight (a : Int) s) = ((a ||| (a >>> s) : Nat) : Int) := rfl

theorem testBit_or_shift (n a w : Nat)
    (ha : ∀ i, a.testBit i = true ↔ ∃ j, j < w ∧ n.testBit (i + j) = true) (i : Nat) :
    (a ||| (a >>> w)).testBit i = true ↔ ∃ j, j < w + w ∧ n.testBit (i + j) = true := by
  rw [Nat.testBit_or, Nat.testBit_shiftRight, Bool.or_eq_true, ha, ha]
  constructor
  · rintro (⟨j, hj, h⟩ | ⟨j, hj, h⟩)
    · exact ⟨j, by omega, h⟩
    · exact ⟨w + j, by omega, by rw [← h]; congr 1; omega⟩
  · rintro ⟨j, hj, h⟩
    by_cases hjw : j < w
    · exact Or.inl ⟨j, hjw, h⟩
    · exact Or.inr ⟨j - w, by omega, by rw [← h]; congr 1; omega⟩

theorem testBit_orShifts (n i : Nat) :
    (orShifts n).testBit i = true ↔ ∃ j, j < 32 ∧ n.testBit (i + j) = true := by
  have h1 : ∀ i, n.testBit i = true ↔ ∃ j, j < 1 ∧ n.testBit (i + j) = true := by
    intro i
    constructor
    · intro h; exact ⟨0, by omega, h⟩
    · rintro ⟨j, hj, h⟩
      have : j = 0 := by omega
      subst this; exact h
  have h2 := testBit_or_shift n _ 1 h1
  have h4 := testBit_or_shift n _ 2 h2
  have h8 := testBit_or_shift n _ 4 h4
  have h16 := testBit_or_shift n _ 8 h8
  exact testBit_or_shift n _ 16 h16 i

theorem testBit_of_pow_le {n p : Nat} (hlo : 2 ^ p ≤ n) (hhi : n < 2 ^ (p + 1)) :
    n.testBit p = true := by
  rw [Nat.testBit_to_div_mod]
  have h1 : n / 2 ^ p = 1 := by
    apply Nat.div_eq_of_lt_le
    · simpa using hlo
    · simpa [pow_succ, Nat.mul_comm] using hhi
  simp [h1]

theorem orShifts_eq {n p : Nat} (hp : p < 32) (hlo : 2 ^ p ≤ n) (hhi : n < 2 ^ (p + 1)) :
    orShifts n = 2 ^ (p + 1) - 1 := by
  apply Nat.eq_of_testBit_eq
  intro i
  rw [Nat.testBit_two_pow_sub_one]
  by_cases hi : i < p + 1
  · have : (orShifts n).testBit i = true := by
      rw [testBit_orShifts]
      refine ⟨p - i, by omega, ?_⟩
      have : i + (p - i) = p := by omega
      rw [this]; exact testBit_of_pow_le hlo hhi
    simp [this, hi]
  · have : (orShifts n).testBit i = false := by
      rw [← Bool.not_eq_true, testBit_orShifts]
      rintro ⟨j, _, h⟩
      have hlt : n < 2 ^ (i + j) := lt_of_lt_of_le hhi (Nat.pow_le_pow_right (by omega) (by omega))
      rw [Nat.testBit_lt_two_pow hlt] at h
      cases h
    simp [this, hi]

theorem orShifts_lt {n q : Nat} (h : n < 2 ^ q) : orShifts n < 2 ^ q := by
  apply Nat.lt_pow_two_of_testBit
  intro i hi
  rw [← Bool.not_eq_true, testBit_orShifts]
  rintro ⟨j, _, hj⟩
  have hlt : n < 2 ^ (i + j) := lt_of_lt_of_le h (Nat.pow_le_pow_right (by omega) (by omega))
  rw [Nat.testBit_lt_two_pow hlt] at hj
  cases hj

theorem pow_le_orShifts {n p : Nat} (hlo : 2 ^ p ≤ n) (hhi : n < 2 ^ (p + 1)) :
    2 ^ p ≤ orShifts n := by
  apply Nat.testBit_implies_ge
  rw [testBit_orShifts]
  exact ⟨0, by omega, testBit_of_pow_le hlo hhi⟩

/-- For a hint `m + 1` above 16 and at most `2^62`, no operation of `computeCapacity`
overflows, the branch `n < 0` is not taken, and the result is `orShifts m + 1`. -/
theorem computeCapacity_succ (m : Nat) (h16 : 16 ≤ m) (hm : m < 2 ^ 62) :
    computeCapacity ((m : Int) + 1) = ((orShifts m : Nat) : Int) + 1 := by
  have hb := orShifts_lt hm
  have hnot : ¬ ((m : Int) + 1 ≤ 16) := by omega
  have hw : wrapInt64 ((m : Int) + 1 - 1) = (m : Int) := by
    rw [wrapInt64_of_range] <;> omega
  have hnn : ¬ (((orShifts m : Nat) : Int) < 0) := by omega
  unfold computeCapacity
  simp only [hnot, if_false, hw, lor_shiftRight_natCast]
  show (if ((orShifts m : Nat) : Int) < 0 then MaxInt32
    else wrapInt64 (((orShifts m : Nat) : Int) + 1)) = _
  rw [if_neg hnn, wrapInt64_of_range] <;> omega

/-- The binary logarithm brackets a positive number. -/
theorem log_bracket {m : Nat} (hm : 0 < m) :
    2 ^ Nat.log 2 m ≤ m ∧ m < 2 ^ (Nat.log 2 m + 1) :=
  ⟨Nat.pow_log_le_self 2 (by omega), Nat.lt_pow_succ_log_self (by omega) m⟩

/-- For a hint `m + 1` with `16 ≤ m < 2^32` the result is the power of two `2^(p+1)`,
where `2^p ≤ m < 2^(p+1)`. -/
theorem computeCapacity_pow (m p : Nat) (h16 : 16 ≤ m) (hp : p < 32)
    (hlo : 2 ^ p ≤ m) (hhi : m < 2 ^ (p + 1)) :
    computeCapacity ((m : Int) + 1) = ((2 ^ (p + 1) : Nat) : Int) := by
  have hm : m < 2 ^ 62 :=
    lt_of_lt_of_le hhi (Nat.pow_le_pow_right (by omega) (by omega))
  rw [computeCapacity_succ m h16 hm, orShifts_eq hp hlo hhi]
  have : 0 < 2 ^ (p + 1) := Nat.two_pow_pos (p + 1)
  omega

end dict

namespace dict

/-- For every hint of at most `2^30` the capacity is a power of two `2^k` with `4 ≤ k ≤ 30`
that is at least `max(h, 16)` and at most every power of two with that property. -/
theorem computeCapacity_spec (h : Int) (hh : h ≤ 2 ^ 30) :
    ∃ k : Nat, 4 ≤ k ∧ k ≤ 30 ∧ computeCapacity h = 2 ^ k ∧ max h 16 ≤ 2 ^ k ∧
      ∀ j : Nat, max h 16 ≤ 2 ^ j → (2 : Int) ^ k ≤ 2 ^ j := by
  by_cases h16 : h ≤ 16
  · refine ⟨4, le_refl 4, by omega, by simp [computeCapacity, h16], ?_, ?_⟩
    · rw [max_eq_right h16]; norm_num
    · intro j hj
      rw [max_eq_right h16] at hj
      simpa using hj
  · obtain ⟨m, rfl⟩ : ∃ m : Nat, h = (m : Int) + 1 := ⟨(h - 1).toNat, by omega⟩
    have hm16 : 16 ≤ m := by omega
    have hm30 : m < 2 ^ 30 := by omega
    obtain ⟨hlo, hhi⟩ := log_bracket (show 0 < m by omega)
    have hp30 : Nat.log 2 m < 30 :=
      (Nat.pow_lt_pow_iff_right (by omega : 1 < 2)).1 (lt_of_le_of_lt hlo hm30)
    have hp4 : 4 < Nat.log 2 m + 1 :=
      (Nat.pow_lt_pow_iff_right (by omega : 1 < 2)).1
        (lt_of_le_of_lt (show 2 ^ 4 ≤ m by omega) hhi)
    have hmax : max ((m : Int) + 1) 16 = (m : Int) + 1 := max_eq_left (by omega)
    refine ⟨Nat.log 2 m + 1, by omega, by omega, ?_, ?_, ?_⟩
    · rw [computeCapacity_pow m (Nat.log 2 m) hm16 (by omega) hlo hhi]
      push_cast; rfl
    · rw [hmax]
      have : m + 1 ≤ 2 ^ (Nat.log 2 m + 1) := hhi
      exact_mod_cast this
    · intro j hj
      rw [hmax] at hj
      have hj1 : m + 1 ≤ 2 ^ j := by exact_mod_cast hj
      have hpj : Nat.log 2 m < j :=
        (Nat.pow_lt_pow_iff_right (by omega : 1 < 2)).1 (lt_of_le_of_lt hlo hj1)
      have : 2 ^ (Nat.log 2 m + 1) ≤ 2 ^ j := Nat.pow_le_pow_right (by omega) hpj
      exact_mod_cast this

theorem MakeConcurrent_of_nonneg {V : Type} (n : Int) (h : 0 ≤ computeCapacity n) :
    (MakeConcurrent n : Except String (ConcurrentDict V)) =
      .ok { table := some (List.replicate (computeCapacity n).toNat { m := [] }),
            count := 0, shardCount := computeCapacity n } := by
  unfold MakeConcurrent
  simp only [not_lt.mpr h, if_false]
  rfl

theorem spreadIndex_pow (k : Nat) (hk : k ≤ 30) (x : Nat) :
    spreadIndex (2 ^ k) x = x % 2 ^ k := by
  have hlt : 2 ^ k < 2 ^ 32 := Nat.pow_lt_pow_right (by omega) (by omega)
  have hpos : 0 < 2 ^ k := Nat.two_pow_pos k
  have h1 : wrapUint32 (wrapUint32 (2 ^ k) + 2 ^ 32 - 1) = 2 ^ k - 1 := by
    unfold wrapUint32
    rw [Nat.mod_eq_of_lt hlt]
    omega
  unfold spreadIndex
  simp only [h1]
  rw [Nat.and_comm, Nat.and_pow_two_sub_one_eq_mod]

end dict

/-! ## Claims on the capacity and on the hash -/

namespace dict

/-- C7: for every hint `h ≤ 2^30`, `computeCapacity(h)` is a power of two, is at least
`max(h, 16)`, and is at most every power of two that is at least `max(h, 16)`;
`MakeConcurrent(h)` returns a dictionary with that shard count and a table of that
length; and the hints 0, 1, 16, 17, 1000, 4 and -5 yield 16, 16, 16, 32, 1024, 16 and 16. -/
theorem computeCapacity_least_power_of_two (V : Type) (h : Int) (hh : h ≤ 2 ^ 30) :
    (∃ k : Nat, computeCapacity h = 2 ^ k) ∧
    max h 16 ≤ computeCapacity h ∧
    (∀ j : Nat, max h 16 ≤ 2 ^ j → computeCapacity h ≤ 2 ^ j) ∧
    (∃ d : ConcurrentDict V, MakeConcurrent h = .ok d ∧ d.shardCount = computeCapacity h ∧
      (d.tableLen : Int) = computeCapacity h) ∧
    (computeCapacity 0 = 16 ∧ computeCapacity 1 = 16 ∧ computeCapacity 16 = 16 ∧
      computeCapacity 17 = 32 ∧ computeCapacity 1000 = 1024 ∧ computeCapacity 4 = 16 ∧
      computeCapacity (-5) = 16) := by
  obtain ⟨k, _, _, hk, hge, hleast⟩ := computeCapacity_spec h hh
  have hnn : 0 ≤ computeCapacity h := by rw [hk]; positivity
  refine ⟨⟨k, hk⟩, by rw [hk]; exact hge, fun j hj => by rw [hk]; exact hleast j hj,
    ⟨_, MakeConcurrent_of_nonneg h hnn, rfl, ?_⟩, by decide⟩
  simp [ConcurrentDict.tableLen, Int.toNat_of_nonneg hnn]

/-- Witness of `computeCapacity_least_power_of_two`: the hint 1000. -/
theorem computeCapacity_least_power_of_two_witness :
    (1000 : Int) ≤ 2 ^ 30 ∧ ((∃ k : Nat, computeCapacity 1000 = 2 ^ k) ∧
    max 1000 16 ≤ computeCapacity 1000 ∧
    (∀ j : Nat, max (1000 : Int) 16 ≤ 2 ^ j → computeCapacity 1000 ≤ 2 ^ j) ∧
    (∃ d : ConcurrentDict Int, MakeConcurrent 1000 = .ok d ∧
      d.shardCount = computeCapacity 1000 ∧ (d.tableLen : Int) = computeCapacity 1000) ∧
    (computeCapacity 0 = 16 ∧ computeCapacity 1 = 16 ∧ computeCapacity 16 = 16 ∧
      computeCapacity 17 = 32 ∧ computeCapacity 1000 = 1024 ∧ computeCapacity 4 = 16 ∧
      computeCapacity (-5) = 16)) :=
  ⟨by decide, computeCapacity_least_power_of_two Int 1000 (by decide)⟩

/-- C8: the capacity is not capped at `math.MaxInt32`: for every hint `h` with
`2^30 < h ≤ 2^62` the result of `computeCapacity(h)` is greater than `2^31 - 1`; the hint
`2^30 + 1` yields `2^31`, and the hint `2^63 - 1` yields the negative value `-2^63`. -/
theorem computeCapacity_not_saturated (h : Int) (hlo : 2 ^ 30 < h) (hhi : h ≤ 2 ^ 62) :
    MaxInt32 < computeCapacity h ∧
    computeCapacity (2 ^ 30 + 1) = 2 ^ 31 ∧
    computeCapacity (2 ^ 63 - 1) = -2 ^ 63 := by
  refine ⟨?_, by decide, by decide⟩
  obtain ⟨m, rfl⟩ : ∃ m : Nat, h = (m : Int) + 1 := ⟨(h - 1).toNat, by omega⟩
  have hm30 : 2 ^ 30 ≤ m := by omega
  have hm62 : m < 2 ^ 62 := by omega
  obtain ⟨hl, hu⟩ := log_bracket (show 0 < m by omega)
  have hp30 : 30 < Nat.log 2 m + 1 :=
    (Nat.pow_lt_pow_iff_right (by omega : 1 < 2)).1 (lt_of_le_of_lt hm30 hu)
  rw [computeCapacity_succ m (by omega) hm62]
  have hbig : 2 ^ 31 - 1 ≤ orShifts m := by
    by_cases hp : Nat.log 2 m < 32
    · rw [orShifts_eq hp hl hu]
      have : 2 ^ 31 ≤ 2 ^ (Nat.log 2 m + 1) := Nat.pow_le_pow_right (by omega) (by omega)
      omega
    · have h1 := pow_le_orShifts hl hu
      have h2 : 2 ^ 32 ≤ 2 ^ Nat.log 2 m := Nat.pow_le_pow_right (by omega) (by omega)
      omega
  unfold MaxInt32
  omega

/-- Witness of `computeCapacity_not_saturated`: the hint `2^30 + 1`. -/
theorem computeCapacity_not_saturated_witness :
    ((2 : Int) ^ 30 < 2 ^ 30 + 1 ∧ (2 : Int) ^ 30 + 1 ≤ 2 ^ 62) ∧
    (MaxInt32 < computeCapacity (2 ^ 30 + 1) ∧
      computeCapacity (2 ^ 30 + 1) = 2 ^ 31 ∧
      computeCapacity (2 ^ 63 - 1) = -2 ^ 63) :=
  ⟨by decide, computeCapacity_not_saturated (2 ^ 30 + 1) (by decide) (by decide)⟩

/-- C9, as stated, fails at the hint `2^33 + 1`: the capacity is `2^34 - 3`, which is not a
power of two, and for the hash 1 the routing index of a table of that length is 0
whereas `1 mod (2^34 - 3)` is 1. -/
theorem computeCapacity_not_power_of_two :
    computeCapacity (2 ^ 33 + 1) = 2 ^ 34 - 3 ∧
    (¬ ∃ k : Nat, computeCapacity (2 ^ 33 + 1) = 2 ^ k) ∧
    spreadIndex (computeCapacity (2 ^ 33 + 1)).toNat 1 = 0 ∧
    1 % (computeCapacity (2 ^ 33 + 1)).toNat = 1 := by
  refine ⟨by decide, ?_, by decide, by decide⟩
  rintro ⟨k, hk⟩
  have hv : computeCapacity (2 ^ 33 + 1) = 2 ^ 34 - 3 := by decide
  rw [hv] at hk
  cases k with
  | zero => norm_num at hk
  | succ k =>
    rw [pow_succ] at hk
    omega

/-- C9 (amended): for every hint `h ≤ 2^30`, the shard count `computeCapacity(h)` is a power
of two and at least 16, and for every hash value `x` the routing index
`x & (shardCount - 1)` computed by `spread` equals `x mod shardCount`. -/
theorem spread_eq_mod (h : Int) (hh : h ≤ 2 ^ 30) :
    (∃ k : Nat, computeCapacity h = 2 ^ k) ∧ 16 ≤ computeCapacity h ∧
    ∀ x : Nat, spreadIndex (computeCapacity h).toNat x = x % (computeCapacity h).toNat := by
  obtain ⟨k, hk4, hk30, hk, _, _⟩ := computeCapacity_spec h hh
  have h16 : (2 : Int) ^ 4 ≤ 2 ^ k := by
    have : 2 ^ 4 ≤ 2 ^ k := Nat.pow_le_pow_right (by omega) hk4
    exact_mod_cast this
  have hnat : (computeCapacity h).toNat = 2 ^ k := by
    rw [hk]
    have : ((2 : Int) ^ k) = ((2 ^ k : Nat) : Int) := by push_cast; rfl
    rw [this, Int.toNat_ofNat]
  refine ⟨⟨k, hk⟩, by rw [hk]; simpa using h16, fun x => ?_⟩
  rw [hnat]
  exact spreadIndex_pow k hk30 x

/-- Witness of `spread_eq_mod`: the hint 17. -/
theorem spread_eq_mod_witness :
    (17 : Int) ≤ 2 ^ 30 ∧ ((∃ k : Nat, computeCapacity 17 = 2 ^ k) ∧ 16 ≤ computeCapacity 17 ∧
    ∀ x : Nat, spreadIndex (computeCapacity 17).toNat x = x % (computeCapacity 17).toNat) :=
  ⟨by decide, spread_eq_mod 17 (by decide)⟩

end dict

theorem dict_fnv32Loop_eq_foldl (key : GoString) :
    ∀ (fuel i hash : Nat), i + fuel = key.length →
      dict.fnv32Loop key fuel i hash =
        (key.drop i).foldl (fun hash b => ((hash * 16777619) % 2 ^ 32) ^^^ b.val) hash := by
  intro fuel
  induction fuel with
  | zero =>
    intro i hash hi
    have : key.drop i = [] := List.drop_eq_nil_of_le (by omega)
    rw [this]; rfl
  | succ fuel ih =>
    intro i hash hi
    have hlt : i < key.length := by omega
    rw [List.drop_eq_getElem_cons hlt, List.foldl_cons, ← ih (i + 1) _ (by omega)]
    simp [dict.fnv32Loop, hlt, wrapUint32, dict.prime32]

theorem lock_fnv32Loop_eq_foldl (key : GoString) :
    ∀ (fuel i hash : Nat), i + fuel = key.length →
      lock.fnv32Loop key fuel i hash =
        (key.drop i).foldl (fun hash b => ((hash * 16777619) % 2 ^ 32) ^^^ b.val) hash := by
  intro fuel
  induction fuel with
  | zero =>
    intro i hash hi
    have : key.drop i = [] := List.drop_eq_nil_of_le (by omega)
    rw [this]; rfl
  | succ fuel ih =>
    intro i hash hi
    have hlt : i < key.length := by omega
    rw [List.drop_eq_getElem_cons hlt, List.foldl_cons, ← ih (i + 1) _ (by omega)]
    simp [lock.fnv32Loop, hlt, wrapUint32, lock.prime32]

/-- C10, as stated, fails at the key "a": the FNV-1a hash of "a" is 0xE40C292C, whereas
`fnv32("a")` is 0x050C5D7E, in the dictionary as in the lock table. -/
theorem fnv32_not_fnv1a :
    dict.fnv1aSpec [97] = 0xE40C292C ∧ dict.fnv32 [97] = 0x050C5D7E ∧
    lock.fnv32 [97] = 0x050C5D7E ∧ dict.fnv32 [97] ≠ dict.fnv1aSpec [97] ∧
    lock.fnv32 [97] ≠ dict.fnv1aSpec [97] := by
  decide

/-- C10 (amended): for every byte string `key`, `fnv32(key)` of the dictionary and of the
lock table equals the 32-bit FNV-1 hash of the bytes: starting from the offset basis
2166136261, for each byte in order first multiply by the prime 16777619 modulo `2^32` and
then XOR the byte into the hash; the hash of the empty string is 0x811C9DC5 and the hash
of "a" is 0x050C5D7E. -/
theorem fnv32_eq_fnv1 (key : GoString) :
    dict.fnv32 key = dict.fnv1Spec key ∧ lock.fnv32 key = dict.fnv1Spec key ∧
    dict.fnv32 [] = 0x811C9DC5 ∧ dict.fnv32 [97] = 0x050C5D7E := by
  refine ⟨?_, ?_, by decide, by decide⟩
  · have := dict_fnv32Loop_eq_foldl key key.length 0 2166136261 (by omega)
    simpa [dict.fnv32, dict.fnv1Spec] using this
  · have := lock_fnv32Loop_eq_foldl key key.length 0 2166136261 (by omega)
    simpa [lock.fnv32, dict.fnv1Spec] using this

/-! ## The lock table: hashing, routing and the sorted slot list -/

namespace lock

theorem fnv32Loop_lt (key : GoString) :
    ∀ (fuel i hash : Nat), hash < 2 ^ 32 → fnv32Loop key fuel i hash < 2 ^ 32 := by
  intro fuel
  induction fuel with
  | zero => intro i hash h; exact h
  | succ fuel ih =>
    intro i hash h
    unfold fnv32Loop
    split
    · apply ih
      apply Nat.xor_lt_two_pow
      · exact Nat.mod_lt _ (by norm_num)
      · exact lt_of_lt_of_le (Fin.is_lt _) (by norm_num)
    · exact h

theorem fnv32_lt (key : GoString) : fnv32 key < 2 ^ 32 :=
  fnv32Loop_lt key _ _ _ (by norm_num)

/-- The mask arithmetic of `spread` stays below the length of a non-empty table. -/
theorem mask_lt {len : Nat} (hlen : 0 < len) {hashCode : Nat} (hh : hashCode < 2 ^ 32) :
    (wrapUint32 (wrapUint32 len + 2 ^ 32 - 1)) &&& hashCode < len := by
  unfold wrapUint32
  by_cases h0 : len % 2 ^ 32 = 0
  · have hbig : 2 ^ 32 ≤ len := by omega
    have h1 : (len % 2 ^ 32 + 2 ^ 32 - 1) % 2 ^ 32 = 2 ^ 32 - 1 := by omega
    rw [h1]
    have h2 : (2 ^ 32 - 1) &&& hashCode ≤ hashCode := Nat.and_le_right
    omega
  · have h1 : (len % 2 ^ 32 + 2 ^ 32 - 1) % 2 ^ 32 = len % 2 ^ 32 - 1 := by omega
    rw [h1]
    have h2 : (len % 2 ^ 32 - 1) &&& hashCode ≤ len % 2 ^ 32 - 1 := Nat.and_le_left
    have h3 : len % 2 ^ 32 ≤ len := Nat.mod_le _ _
    omega

theorem spread_lt (locks : Locks) (hne : locks.table ≠ []) {hashCode : Nat}
    (hh : hashCode < 2 ^ 32) : locks.spread hashCode < locks.table.length :=
  mask_lt (List.length_pos.2 hne) hh

theorem orderedInsert_congr {r s : Nat → Nat → Prop} [DecidableRel r] [DecidableRel s]
    (h : ∀ a b, r a b ↔ s a b) (a : Nat) (l : List Nat) :
    l.orderedInsert r a = l.orderedInsert s a := by
  induction l with
  | nil => rfl
  | cons b l ih => simp [List.orderedInsert, h, ih]

theorem insertionSort_congr {r s : Nat → Nat → Prop} [DecidableRel r] [DecidableRel s]
    (h : ∀ a b, r a b ↔ s a b) (l : List Nat) :
    l.insertionSort r = l.insertionSort s := by
  induction l with
  | nil => rfl
  | cons b l ih => simp [List.insertionSort, ih, orderedInsert_congr h]

theorem toLockIndices_true (locks : Locks) (keys : List GoString) :
    locks.toLockIndices keys true = (locks.indexMap keys).insertionSort (· ≤ ·) := by
  unfold Locks.toLockIndices sortSlice
  apply insertionSort_congr
  intro a b
  simp

theorem toLockIndices_false (locks : Locks) (keys : List GoString) :
    locks.toLockIndices keys false = (locks.indexMap keys).insertionSort (· ≥ ·) := by
  unfold Locks.toLockIndices sortSlice
  apply insertionSort_congr
  intro a b
  simp

theorem foldl_insert_nodup {α : Type} (f : α → Nat) (keys : List α) :
    ∀ acc : List Nat, acc.Nodup → (keys.foldl (fun m key => m.insert (f key)) acc).Nodup := by
  induction keys with
  | nil => intro acc h; exact h
  | cons k keys ih => intro acc h; exact ih _ (h.insert)

theorem mem_foldl_insert {α : Type} (f : α → Nat) (keys : List α) (i : Nat) :
    ∀ acc : List Nat, i ∈ keys.foldl (fun m key => m.insert (f key)) acc ↔
      i ∈ acc ∨ ∃ k, k ∈ keys ∧ f k = i := by
  induction keys with
  | nil => intro acc; simp
  | cons k keys ih =>
    intro acc
    rw [List.foldl_cons, ih, List.mem_insert_iff]
    constructor
    · rintro ((h | h) | ⟨k1, hk1, h⟩)
      · exact Or.inr ⟨k, List.mem_cons_self _ _, h.symm⟩
      · exact Or.inl h
      · exact Or.inr ⟨k1, List.mem_cons_of_mem _ hk1, h⟩
    · rintro (h | ⟨k1, hk1, h⟩)
      · exact Or.inl (Or.inr h)
      · rcases List.mem_cons.1 hk1 with rfl | hk
        · exact Or.inl (Or.inl h.symm)
        · exact Or.inr ⟨k1, hk, h⟩

theorem indexMap_nodup (locks : Locks) (keys : List GoString) :
    (locks.indexMap keys).Nodup :=
  foldl_insert_nodup (fun key => locks.spread (fnv32 key)) keys [] List.nodup_nil

theorem mem_indexMap (locks : Locks) (keys : List GoString) (i : Nat) :
    i ∈ locks.indexMap keys ↔ ∃ k, k ∈ keys ∧ locks.spread (fnv32 k) = i := by
  have := mem_foldl_insert (fun key => locks.spread (fnv32 key)) keys i []
  simpa [Locks.indexMap] using this

theorem toLockIndices_perm (locks : Locks) (keys : List GoString) (reverse : Bool) :
    (locks.toLockIndices keys reverse).Perm (locks.indexMap keys) := by
  cases reverse
  · rw [toLockIndices_false]; exact List.perm_insertionSort _ _
  · rw [toLockIndices_true]; exact List.perm_insertionSort _ _

theorem toLockIndices_nodup (locks : Locks) (keys : List GoString) (reverse : Bool) :
    (locks.toLockIndices keys reverse).Nodup :=
  (toLockIndices_perm locks keys reverse).nodup_iff.2 (indexMap_nodup locks keys)

theorem mem_toLockIndices (locks : Locks) (keys : List GoString) (reverse : Bool)
    (i : Nat) :
    i ∈ locks.toLockIndices keys reverse ↔ ∃ k, k ∈ keys ∧ locks.spread (fnv32 k) = i := by
  rw [(toLockIndices_perm locks keys reverse).mem_iff, mem_indexMap]

end lock

/-! ## The lock table: order of the slot list and traces of the methods -/

namespace lock

theorem toLockIndices_ascending (locks : Locks) (keys : List GoString) :
    (locks.toLockIndices keys true).Sorted (· < ·) := by
  have h : (locks.toLockIndices keys true).Sorted (· ≤ ·) := by
    rw [toLockIndices_true]; exact List.sorted_insertionSort _ _
  exact h.lt_of_le (toLockIndices_nodup locks keys true)

theorem toLockIndices_descending (locks : Locks) (keys : List GoString) :
    (locks.toLockIndices keys false).Sorted (· > ·) := by
  have h : (locks.toLockIndices keys false).Sorted (· ≥ ·) := by
    rw [toLockIndices_false]; exact List.sorted_insertionSort _ _
  exact h.gt_of_ge (toLockIndices_nodup locks keys false)

/-- The result of `sort.Slice` does not depend on the order of its input. -/
theorem sortSlice_perm (reverse : Bool) {l₁ l₂ : List Nat} (hp : l₁.Perm l₂) :
    sortSlice (fun a b => if reverse then decide (a < b) else decide (a > b)) l₁ =
      sortSlice (fun a b => if reverse then decide (a < b) else decide (a > b)) l₂ := by
  cases reverse
  · have e : ∀ l : List Nat,
        sortSlice (fun a b => if false then decide (a < b) else decide (a > b)) l =
          l.insertionSort (· ≥ ·) := fun l => by
      unfold sortSlice; apply insertionSort_congr; intro a b; simp
    rw [e, e]
    exact List.eq_of_perm_of_sorted
      (((List.perm_insertionSort _ l₁).trans hp).trans (List.perm_insertionSort _ l₂).symm)
      (List.sorted_insertionSort _ _) (List.sorted_insertionSort _ _)
  · have e : ∀ l : List Nat,
        sortSlice (fun a b => if true then decide (a < b) else decide (a > b)) l =
          l.insertionSort (· ≤ ·) := fun l => by
      unfold sortSlice; apply insertionSort_congr; intro a b; simp
    rw [e, e]
    exact List.eq_of_perm_of_sorted
      (((List.perm_insertionSort _ l₁).trans hp).trans (List.perm_insertionSort _ l₂).symm)
      (List.sorted_insertionSort _ _) (List.sorted_insertionSort _ _)

theorem toLockIndices_true_eq_reverse (locks : Locks) (keys : List GoString) :
    locks.toLockIndices keys true = (locks.toLockIndices keys false).reverse := by
  apply List.eq_of_perm_of_sorted (r := (· ≤ ·))
  · exact ((toLockIndices_perm locks keys true).trans
      (toLockIndices_perm locks keys false).symm).trans (List.reverse_perm _).symm
  · exact (toLockIndices_ascending locks keys).le_of_lt
  · have h := (toLockIndices_descending locks keys).ge_of_gt
    unfold List.Sorted at h ⊢
    rw [List.pairwise_reverse]
    exact h

/-- Key lists with the same elements have the same sorted slot list. -/
theorem toLockIndices_congr (locks : Locks) {keys₁ keys₂ : List GoString}
    (h : ∀ k, k ∈ keys₁ ↔ k ∈ keys₂) (reverse : Bool) :
    locks.toLockIndices keys₁ reverse = locks.toLockIndices keys₂ reverse := by
  have hp : (locks.indexMap keys₁).Perm (locks.indexMap keys₂) := by
    rw [List.perm_ext_iff_of_nodup (indexMap_nodup locks keys₁) (indexMap_nodup locks keys₂)]
    intro i
    rw [mem_indexMap, mem_indexMap]
    constructor
    · rintro ⟨k, hk, e⟩; exact ⟨k, (h k).1 hk, e⟩
    · rintro ⟨k, hk, e⟩; exact ⟨k, (h k).2 hk, e⟩
  exact sortSlice_perm reverse hp

theorem toLockIndices_lt (locks : Locks) (hne : locks.table ≠ []) (keys : List GoString)
    (reverse : Bool) : ∀ i, i ∈ locks.toLockIndices keys reverse → i < locks.table.length := by
  intro i hi
  obtain ⟨k, _, rfl⟩ := (mem_toLockIndices locks keys reverse i).1 hi
  exact spread_lt locks hne (fnv32_lt k)

theorem forIndices_of_lt (locks : Locks) (op : Nat → Op) :
    ∀ l : List Nat, (∀ i, i ∈ l → i < locks.table.length) →
      locks.forIndices op l =
        { calls := l.map (fun i => { slot := i, op := op i }), panic := none } := by
  intro l
  induction l with
  | nil => intro _; rfl
  | cons i l ih =>
    intro h
    have hi : i < locks.table.length := h i (List.mem_cons_self _ _)
    have hl := ih (fun j hj => h j (List.mem_cons_of_mem _ hj))
    simp [Locks.forIndices, hi, hl]

theorem forIndices_of_empty (locks : Locks) (op : Nat → Op) (hnil : locks.table = []) :
    ∀ l : List Nat, locks.forIndices op l =
      { calls := [],
        panic := if l = [] then none else some "runtime error: index out of range" } := by
  intro l
  cases l with
  | nil => rfl
  | cons i l => simp [Locks.forIndices, hnil]

/-- The slots that the loop over `indices` touches are an initial segment of `indices`. -/
theorem forIndices_slots_initial (locks : Locks) (op : Nat → Op) :
    ∀ l : List Nat, (locks.forIndices op l).slots <+: l := by
  intro l
  induction l with
  | nil => exact List.prefix_refl _
  | cons i l ih =>
    unfold Locks.forIndices
    split
    · simpa [Trace.slots] using ih
    · simp [Trace.slots]

theorem indexOf_lt_iff_of_descending :
    ∀ {l : List Nat}, l.Sorted (· > ·) → ∀ {i j : Nat}, i ∈ l → j ∈ l →
      (before l i j ↔ i > j) := by
  intro l
  induction l with
  | nil => intro _ i j hi; cases hi
  | cons a t ih =>
    intro hs i j hi hj
    obtain ⟨ha, ht⟩ := List.sorted_cons.1 hs
    unfold before
    by_cases hia : a = i
    · subst hia
      rw [List.indexOf_cons_self]
      by_cases hja : a = j
      · subst hja; simp
      · rw [List.indexOf_cons_ne _ hja]
        have hjt : j ∈ t := by
          rcases List.mem_cons.1 hj with h | h
          · exact absurd h.symm hja
          · exact h
        have := ha j hjt
        simp only [Nat.zero_lt_succ, true_iff]; exact this
    · rw [List.indexOf_cons_ne _ hia]
      have hit : i ∈ t := by
        rcases List.mem_cons.1 hi with h | h
        · exact absurd h.symm hia
        · exact h
      by_cases hja : a = j
      · subst hja
        rw [List.indexOf_cons_self]
        have := ha i hit
        constructor
        · intro h; omega
        · intro h; omega
      · rw [List.indexOf_cons_ne _ hja]
        have hjt : j ∈ t := by
          rcases List.mem_cons.1 hj with h | h
          · exact absurd h.symm hja
          · exact h
        have := ih ht hit hjt
        unfold before at this
        rw [← this]
        exact Nat.succ_lt_succ_iff

theorem acquisition_slots_descending (locks : Locks) {t : Trace} (ht : IsAcquisition locks t) :
    t.slots.Sorted (· > ·) := by
  cases ht with
  | ofLocks keys =>
    exact (toLockIndices_descending locks keys).sublist (forIndices_slots_initial locks _ _).sublist
  | ofRLocks keys =>
    exact (toLockIndices_descending locks keys).sublist (forIndices_slots_initial locks _ _).sublist
  | ofRWLocks w r =>
    exact (toLockIndices_descending locks (w ++ r)).sublist
      (forIndices_slots_initial locks _ _).sublist

end lock

/-! ## Claims on routing and on the multi-key methods of the lock table -/

namespace lock

theorem dict_fnv32_eq_lock_fnv32 (key : GoString) : dict.fnv32 key = fnv32 key := by
  have h1 := dict_fnv32Loop_eq_foldl key key.length 0 2166136261 (by omega)
  have h2 := lock_fnv32Loop_eq_foldl key key.length 0 2166136261 (by omega)
  unfold dict.fnv32 fnv32
  rw [h1, h2]

/-- C11: the two copies of `fnv32` agree on every key, and the mask arithmetic of the two
`spread` methods agrees for tables of the same length; but on a dictionary whose table is
initialized (any number of shards) `spread` of the dictionary returns no index: it panics
with "table is nil", whereas `spread` of the lock table returns the masked hash. -/
theorem routing_shared_dict_spread_panics (V : Type) (key : GoString)
    (t : List (dict.shard V)) (count shardCount : Int) (locks : Locks)
    (hlen : locks.table.length = t.length) :
    dict.fnv32 key = fnv32 key ∧
    dict.spreadIndex t.length (dict.fnv32 key) = locks.spread (fnv32 key) ∧
    ({ table := some t, count := count, shardCount := shardCount } :
        dict.ConcurrentDict V).spread (dict.fnv32 key) = .error "table is nil" := by
  refine ⟨dict_fnv32_eq_lock_fnv32 key, ?_, rfl⟩
  rw [dict_fnv32_eq_lock_fnv32]
  unfold dict.spreadIndex Locks.spread
  rw [hlen]

/-- Witness of `routing_shared_dict_spread_panics`: the key "a", a dictionary and a lock
table of 16 entries; both masks give index 14. -/
theorem routing_shared_dict_spread_panics_witness :
    table16.table.length = (List.replicate 16 ({ m := [] } : dict.shard Int)).length ∧
    (dict.fnv32 [97] = fnv32 [97] ∧
      dict.spreadIndex (List.replicate 16 ({ m := [] } : dict.shard Int)).length
        (dict.fnv32 [97]) = table16.spread (fnv32 [97]) ∧
      ({ table := some (List.replicate 16 { m := [] }), count := 0, shardCount := 16 } :
        dict.ConcurrentDict Int).spread (dict.fnv32 [97]) = .error "table is nil") :=
  ⟨by decide, routing_shared_dict_spread_panics Int [97] (List.replicate 16 { m := [] }) 0 16
    table16 (by decide)⟩

/-- C12: on a non-empty lock table, for every key list and either value of `reverse`,
`toLockIndices(keys, reverse)` has no index twice and its elements are exactly the slot
indices `spread(fnv32(k))` of the keys `k`; `Locks`, `RLocks`, `UnLocks` and `RUnLocks` make
exactly one mutex call on each of these slots, none on any other slot, and do not panic;
for the empty key list the slot list is empty and no call is made. -/
theorem toLockIndices_distinct_slots (locks : Locks) (hne : locks.table ≠ [])
    (keys : List GoString) (reverse : Bool) :
    (locks.toLockIndices keys reverse).Nodup ∧
    (∀ i, i ∈ locks.toLockIndices keys reverse ↔
      ∃ k, k ∈ keys ∧ locks.spread (fnv32 k) = i) ∧
    locks.Locks keys =
      { calls := (locks.toLockIndices keys false).map (fun i => { slot := i, op := .Lock }),
        panic := none } ∧
    locks.RLocks keys =
      { calls := (locks.toLockIndices keys false).map (fun i => { slot := i, op := .RLock }),
        panic := none } ∧
    locks.UnLocks keys =
      { calls := (locks.toLockIndices keys true).map (fun i => { slot := i, op := .Unlock }),
        panic := none } ∧
    locks.RUnLocks keys =
      { calls := (locks.toLockIndices keys true).map (fun i => { slot := i, op := .RUnlock }),
        panic := none } ∧
    locks.toLockIndices [] reverse = [] ∧
    locks.Locks [] = { calls := [], panic := none } ∧
    locks.RLocks [] = { calls := [], panic := none } ∧
    locks.UnLocks [] = { calls := [], panic := none } ∧
    locks.RUnLocks [] = { calls := [], panic := none } := by
  have hnil : ∀ r, locks.toLockIndices [] r = [] := fun r => by cases r <;> rfl
  refine ⟨toLockIndices_nodup locks keys reverse, mem_toLockIndices locks keys reverse,
    forIndices_of_lt locks _ _ (toLockIndices_lt locks hne keys false),
    forIndices_of_lt locks _ _ (toLockIndices_lt locks hne keys false),
    forIndices_of_lt locks _ _ (toLockIndices_lt locks hne keys true),
    forIndices_of_lt locks _ _ (toLockIndices_lt locks hne keys true),
    hnil reverse, ?_, ?_, ?_, ?_⟩ <;>
  simp [Locks.Locks, Locks.RLocks, Locks.UnLocks, Locks.RUnLocks, hnil, Locks.forIndices]

/-- Witness of `toLockIndices_distinct_slots`: 16 slots and the keys "a", "b", "a". -/
theorem toLockIndices_distinct_slots_witness :
    table16.table ≠ [] ∧ table16.toLockIndices [[97], [98], [97]] false = [14, 13] ∧
    ((table16.toLockIndices [[97], [98], [97]] false).Nodup ∧
    (∀ i, i ∈ table16.toLockIndices [[97], [98], [97]] false ↔
      ∃ k, k ∈ [[97], [98], [97]] ∧ table16.spread (fnv32 k) = i) ∧
    table16.Locks [[97], [98], [97]] =
      { calls := (table16.toLockIndices [[97], [98], [97]] false).map
          (fun i => { slot := i, op := .Lock }), panic := none } ∧
    table16.RLocks [[97], [98], [97]] =
      { calls := (table16.toLockIndices [[97], [98], [97]] false).map
          (fun i => { slot := i, op := .RLock }), panic := none } ∧
    table16.UnLocks [[97], [98], [97]] =
      { calls := (table16.toLockIndices [[97], [98], [97]] true).map
          (fun i => { slot := i, op := .Unlock }), panic := none } ∧
    table16.RUnLocks [[97], [98], [97]] =
      { calls := (table16.toLockIndices [[97], [98], [97]] true).map
          (fun i => { slot := i, op := .RUnlock }), panic := none } ∧
    table16.toLockIndices [] false = [] ∧
    table16.Locks [] = { calls := [], panic := none } ∧
    table16.RLocks [] = { calls := [], panic := none } ∧
    table16.UnLocks [] = { calls := [], panic := none } ∧
    table16.RUnLocks [] = { calls := [], panic := none }) :=
  ⟨by decide, by decide,
    toLockIndices_distinct_slots table16 (by decide) [[97], [98], [97]] false⟩

end lock

namespace lock

/-- C13: `Locks`, `RLocks` and `RWLocks` do not acquire their slots in ascending order: for
every lock table and all key lists the sequence of slots they touch is strictly
descending (largest index first); with 16 slots, `Locks("a", "b")` acquires slot 14 and
then slot 13. -/
theorem acquisition_order_descending (locks : Locks) (t : Trace)
    (ht : IsAcquisition locks t) :
    t.slots.Sorted (· > ·) ∧
    (table16.Locks [[97], [98]]).slots = [14, 13] ∧
    ¬ (table16.Locks [[97], [98]]).slots.Sorted (· < ·) := by
  refine ⟨acquisition_slots_descending locks ht, by decide, ?_⟩
  have h : (table16.Locks [[97], [98]]).slots = [14, 13] := by decide
  rw [h]
  decide

/-- Witness of `acquisition_order_descending`: `RWLocks(["a"], ["b"])` on 16 slots. -/
theorem acquisition_order_descending_witness :
    IsAcquisition table16 (table16.RWLocks [[97]] [[98]]) ∧
    ((table16.RWLocks [[97]] [[98]]).slots.Sorted (· > ·) ∧
    (table16.Locks [[97], [98]]).slots = [14, 13] ∧
    ¬ (table16.Locks [[97], [98]]).slots.Sorted (· < ·)) :=
  ⟨IsAcquisition.ofRWLocks _ _,
    acquisition_order_descending table16 _ (IsAcquisition.ofRWLocks [[97]] [[98]])⟩

/-- C14: on one lock table, for any two calls among `Locks`, `RLocks` and `RWLocks` with
arbitrary key lists, two slots that both calls acquire are acquired in the same relative
order by both; the trace of `Locks(keys)` depends only on the set of keys, not on their
order or multiplicity; with 16 slots `Locks("x", "y")` and `Locks("y", "x")` make the
same calls in the same order. -/
theorem acquisition_order_consistent (locks : Locks) (t₁ t₂ : Trace)
    (h₁ : IsAcquisition locks t₁) (h₂ : IsAcquisition locks t₂) :
    (∀ i j, i ∈ t₁.slots → j ∈ t₁.slots → i ∈ t₂.slots → j ∈ t₂.slots →
      (before t₁.slots i j ↔ before t₂.slots i j)) ∧
    (∀ keys₁ keys₂ : List GoString, (∀ k, k ∈ keys₁ ↔ k ∈ keys₂) →
      locks.Locks keys₁ = locks.Locks keys₂) ∧
    table16.Locks [[120], [121]] = table16.Locks [[121], [120]] ∧
    (table16.Locks [[120], [121]]).slots = [7, 6] := by
  refine ⟨?_, ?_, by decide, by decide⟩
  · intro i j hi1 hj1 hi2 hj2
    rw [indexOf_lt_iff_of_descending (acquisition_slots_descending locks h₁) hi1 hj1,
      indexOf_lt_iff_of_descending (acquisition_slots_descending locks h₂) hi2 hj2]
  · intro keys₁ keys₂ h
    unfold Locks.Locks
    rw [toLockIndices_congr locks h false]

/-- Witness of `acquisition_order_consistent`: `Locks("x", "y")` and `RWLocks(["y"], ["x"])`
on 16 slots. -/
theorem acquisition_order_consistent_witness :
    (IsAcquisition table16 (table16.Locks [[120], [121]]) ∧
      IsAcquisition table16 (table16.RWLocks [[121]] [[120]])) ∧
    ((∀ i j, i ∈ (table16.Locks [[120], [121]]).slots →
        j ∈ (table16.Locks [[120], [121]]).slots →
        i ∈ (table16.RWLocks [[121]] [[120]]).slots →
        j ∈ (table16.RWLocks [[121]] [[120]]).slots →
        (before (table16.Locks [[120], [121]]).slots i j ↔
          before (table16.RWLocks [[121]] [[120]]).slots i j)) ∧
    (∀ keys₁ keys₂ : List GoString, (∀ k, k ∈ keys₁ ↔ k ∈ keys₂) →
      table16.Locks keys₁ = table16.Locks keys₂) ∧
    table16.Locks [[120], [121]] = table16.Locks [[121], [120]] ∧
    (table16.Locks [[120], [121]]).slots = [7, 6]) :=
  ⟨⟨IsAcquisition.ofLocks _, IsAcquisition.ofRWLocks _ _⟩,
    acquisition_order_consistent table16 _ _ (IsAcquisition.ofLocks [[120], [121]])
      (IsAcquisition.ofRWLocks [[121]] [[120]])⟩

theorem forIndices_slots_of_ne (locks : Locks) (hne : locks.table ≠ []) (op : Nat → Op)
    (keys : List GoString) (reverse : Bool) :
    (locks.forIndices op (locks.toLockIndices keys reverse)).slots =
      locks.toLockIndices keys reverse := by
  rw [forIndices_of_lt locks op _ (toLockIndices_lt locks hne keys reverse)]
  simp [Trace.slots, Function.comp_def]

theorem forIndices_slots_of_empty (locks : Locks) (hnil : locks.table = []) (op : Nat → Op)
    (l : List Nat) : (locks.forIndices op l).slots = [] := by
  rw [forIndices_of_empty locks op hnil]
  rfl

/-- C17: for every lock table and every key list, `toLockIndices(keys, true)` is the reversal
of `toLockIndices(keys, false)`, and the sequence of slots released by `UnLocks(keys)`
(by `RUnLocks(keys)`) is the reversal of the sequence of slots acquired by `Locks(keys)`
(by `RLocks(keys)`). -/
theorem release_reverses_acquisition (locks : Locks) (keys : List GoString) :
    locks.toLockIndices keys true = (locks.toLockIndices keys false).reverse ∧
    (locks.UnLocks keys).slots = (locks.Locks keys).slots.reverse ∧
    (locks.RUnLocks keys).slots = (locks.RLocks keys).slots.reverse := by
  refine ⟨toLockIndices_true_eq_reverse locks keys, ?_, ?_⟩
  · unfold Locks.UnLocks Locks.Locks
    by_cases hne : locks.table = []
    · simp [forIndices_slots_of_empty locks hne]
    · simp only [forIndices_slots_of_ne locks hne]
      exact toLockIndices_true_eq_reverse locks keys
  · unfold Locks.RUnLocks Locks.RLocks
    by_cases hne : locks.table = []
    · simp [forIndices_slots_of_empty locks hne]
    · simp only [forIndices_slots_of_ne locks hne]
      exact toLockIndices_true_eq_reverse locks keys

end lock

/-! ## The mixed pass `RWLocks` / `RWUnLocks` -/

namespace lock

theorem mem_writeIndexSet (l : List Nat) (i : Nat) :
    i ∈ l.foldl (fun set index => set.insert index) [] ↔ i ∈ l := by
  have := mem_foldl_insert (fun x : Nat => x) l i []
  simpa using this

theorem RWLocks_eq (locks : Locks) (hne : locks.table ≠ []) (w r : List GoString) :
    locks.RWLocks w r =
      { calls := (locks.toLockIndices (w ++ r) false).map (fun i =>
          { slot := i,
            op := if i ∈ locks.toLockIndices w false then Op.Lock else Op.RLock }),
        panic := none } := by
  unfold Locks.RWLocks
  simp only [mem_writeIndexSet]
  exact forIndices_of_lt locks _ _ (toLockIndices_lt locks hne (w ++ r) false)

theorem RWUnLocks_eq (locks : Locks) (hne : locks.table ≠ []) (w r : List GoString) :
    locks.RWUnLocks w r =
      { calls := (locks.toLockIndices (w ++ r) false).map (fun i =>
          { slot := i,
            op := if i ∈ locks.toLockIndices w false then Op.Unlock else Op.RUnlock }),
        panic := none } := by
  unfold Locks.RWUnLocks
  simp only [mem_writeIndexSet]
  exact forIndices_of_lt locks _ _ (toLockIndices_lt locks hne (w ++ r) false)

theorem RWLocks_of_empty (locks : Locks) (hnil : locks.table = []) (w r : List GoString) :
    (locks.RWLocks w r).calls = [] ∧ (locks.RWUnLocks w r).calls = [] ∧
      (locks.RWUnLocks w r).panic = (locks.RWLocks w r).panic := by
  unfold Locks.RWLocks Locks.RWUnLocks
  rw [forIndices_of_empty locks _ hnil, forIndices_of_empty locks _ hnil]
  exact ⟨rfl, rfl, rfl⟩

/-- C15, as stated, fails on the empty lock table (`Make(0)`): `RWLocks(["a"], [])` acquires
no slot; the index `spread(fnv32("a"))` is the whole hash, the access `locks.table[index]`
panics. -/
theorem RWLocks_empty_table_panics :
    Make 0 = .ok { table := [] } ∧
    ({ table := [] } : Locks).spread (fnv32 [97]) = 0x050C5D7E ∧
    ({ table := [] } : Locks).RWLocks [[97]] [] =
      { calls := [], panic := some "runtime error: index out of range" } := by
  refine ⟨rfl, by decide, by decide⟩

/-- C15 (amended): on every non-empty lock table, for all key lists `writeKeys` and
`readKeys`, `RWLocks(writeKeys, readKeys)` does not panic, touches no slot twice, touches
exactly the slots `spread(fnv32 k)` of the keys `k` of `writeKeys ++ readKeys`, and on each
of them calls `Lock` if some write key maps to the slot and `RLock` otherwise. -/
theorem RWLocks_modes (locks : Locks) (hne : locks.table ≠ []) (writeKeys readKeys : List GoString) :
    (locks.RWLocks writeKeys readKeys).panic = none ∧
    (locks.RWLocks writeKeys readKeys).slots.Nodup ∧
    (∀ i, i ∈ (locks.RWLocks writeKeys readKeys).slots ↔
      ∃ k, k ∈ writeKeys ++ readKeys ∧ locks.spread (fnv32 k) = i) ∧
    (∀ c, c ∈ (locks.RWLocks writeKeys readKeys).calls →
      (c.op = .Lock ↔ ∃ k, k ∈ writeKeys ∧ locks.spread (fnv32 k) = c.slot) ∧
      (c.op = .RLock ↔ ¬ ∃ k, k ∈ writeKeys ∧ locks.spread (fnv32 k) = c.slot)) := by
  have hs : (locks.RWLocks writeKeys readKeys).slots =
      locks.toLockIndices (writeKeys ++ readKeys) false := by
    rw [RWLocks_eq locks hne]
    simp [Trace.slots, Function.comp_def]
  refine ⟨by rw [RWLocks_eq locks hne], ?_, ?_, ?_⟩
  · rw [hs]; exact toLockIndices_nodup locks _ false
  · intro i; rw [hs]; exact mem_toLockIndices locks _ false i
  · intro c hc
    rw [RWLocks_eq locks hne] at hc
    simp only [List.mem_map] at hc
    obtain ⟨i, _, rfl⟩ := hc
    simp only [← mem_toLockIndices locks writeKeys false]
    by_cases hi : i ∈ locks.toLockIndices writeKeys false <;> simp [hi]

/-- Witness of `RWLocks_modes`: 16 slots, write key "a", read keys "b" and "a". -/
theorem RWLocks_modes_witness :
    table16.table ≠ [] ∧
    table16.RWLocks [[97]] [[98], [97]] =
      { calls := [{ slot := 14, op := .Lock }, { slot := 13, op := .RLock }], panic := none } ∧
    ((table16.RWLocks [[97]] [[98], [97]]).panic = none ∧
    (table16.RWLocks [[97]] [[98], [97]]).slots.Nodup ∧
    (∀ i, i ∈ (table16.RWLocks [[97]] [[98], [97]]).slots ↔
      ∃ k, k ∈ [[97]] ++ [[98], [97]] ∧ table16.spread (fnv32 k) = i) ∧
    (∀ c, c ∈ (table16.RWLocks [[97]] [[98], [97]]).calls →
      (c.op = .Lock ↔ ∃ k, k ∈ [[97]] ∧ table16.spread (fnv32 k) = c.slot) ∧
      (c.op = .RLock ↔ ¬ ∃ k, k ∈ [[97]] ∧ table16.spread (fnv32 k) = c.slot))) :=
  ⟨by decide, by decide, RWLocks_modes table16 (by decide) [[97]] [[98], [97]]⟩

end lock

namespace lock

theorem set_of_getElem? {α : Type} (l : List α) (i : Nat) (a : α) (h : l[i]? = some a) :
    l.set i a = l := by
  apply List.ext_getElem?
  intro j
  by_cases hij : i = j
  · subst hij
    obtain ⟨hlt, _⟩ := List.getElem?_eq_some.1 h
    rw [List.getElem?_set_self hlt, h]
  · rw [List.getElem?_set_ne hij]

theorem applyCall_of_getElem? (table : List RWMutex) (c : Call) (m m1 : RWMutex)
    (h : table[c.slot]? = some m) (hm : m.call c.op = .ok m1) :
    applyCall table c = .done (table.set c.slot m1) := by
  simp [applyCall, h, hm]

theorem call_acquire_free (op : Op) (h : op = .Lock ∨ op = .RLock) :
    RWMutex.free.call op = .ok (lockedState op) := by
  rcases h with rfl | rfl <;> rfl

theorem call_release_locked (op : Op) (h : op = .Lock ∨ op = .RLock) :
    (lockedState op).call op.release = .ok RWMutex.free := by
  rcases h with rfl | rfl <;> rfl

theorem acquired_cons (table : List RWMutex) (c : Call) (l : List Call) :
    acquired table (c :: l) = acquired (table.set c.slot (lockedState c.op)) l := rfl

theorem getElem?_acquired_of_not_mem (l : List Call) (i : Nat) :
    ∀ table : List RWMutex, i ∉ l.map Call.slot → (acquired table l)[i]? = table[i]? := by
  induction l with
  | nil => intro table _; rfl
  | cons c l ih =>
    intro table h
    rw [List.map_cons, List.mem_cons, not_or] at h
    rw [acquired_cons, ih _ h.2, List.getElem?_set_ne (fun e => h.1 e.symm)]

theorem set_acquired_comm (l : List Call) (i : Nat) (m : RWMutex) :
    ∀ table : List RWMutex, i ∉ l.map Call.slot →
      (acquired table l).set i m = acquired (table.set i m) l := by
  induction l with
  | nil => intro table _; rfl
  | cons c l ih =>
    intro table h
    rw [List.map_cons, List.mem_cons, not_or] at h
    rw [acquired_cons, acquired_cons, ih _ h.2, List.set_comm _ _ _ (fun e => h.1 e.symm)]

/-- Acquisitions on distinct free slots all return; the table afterwards is `acquired`. -/
theorem run_acquire (rest : List Call) (l : List Call) :
    ∀ table : List RWMutex, (∀ c, c ∈ l → c.op = .Lock ∨ c.op = .RLock) →
      (l.map Call.slot).Nodup → (∀ c, c ∈ l → table[c.slot]? = some RWMutex.free) →
      run table (l ++ rest) = run (acquired table l) rest := by
  induction l with
  | nil => intro table _ _ _; rfl
  | cons c l ih =>
    intro table hop hnd hfree
    rw [List.map_cons, List.nodup_cons] at hnd
    have h1 := applyCall_of_getElem? table c _ _ (hfree c (List.mem_cons_self _ _))
      (call_acquire_free c.op (hop c (List.mem_cons_self _ _)))
    rw [List.cons_append, run, h1, acquired_cons]
    apply ih _ (fun d hd => hop d (List.mem_cons_of_mem _ hd)) hnd.2
    intro d hd
    have hne : c.slot ≠ d.slot := fun e => hnd.1 (e ▸ List.mem_map_of_mem Call.slot hd)
    rw [List.getElem?_set_ne hne]
    exact hfree d (List.mem_cons_of_mem _ hd)

/-- The matching releases, made in the order of the acquisitions, all return and leave the
table as it was before the acquisitions. -/
theorem run_release (rest : List Call) (l : List Call) :
    ∀ table : List RWMutex, (∀ c, c ∈ l → c.op = .Lock ∨ c.op = .RLock) →
      (l.map Call.slot).Nodup → (∀ c, c ∈ l → table[c.slot]? = some RWMutex.free) →
      run (acquired table l) (l.map Call.release ++ rest) = run table rest := by
  induction l with
  | nil => intro table _ _ _; rfl
  | cons c l ih =>
    intro table hop hnd hfree
    rw [List.map_cons, List.nodup_cons] at hnd
    have hc := hfree c (List.mem_cons_self _ _)
    obtain ⟨hlt, _⟩ := List.getElem?_eq_some.1 hc
    have hget : (acquired (table.set c.slot (lockedState c.op)) l)[(Call.release c).slot]? =
        some (lockedState c.op) := by
      show (acquired (table.set c.slot (lockedState c.op)) l)[c.slot]? = _
      rw [getElem?_acquired_of_not_mem l c.slot _ hnd.1, List.getElem?_set_self hlt]
    have h1 := applyCall_of_getElem? _ (Call.release c) _ _ hget
      (call_release_locked c.op (hop c (List.mem_cons_self _ _)))
    rw [List.map_cons, List.cons_append, run, acquired_cons, h1]
    show run ((acquired (table.set c.slot (lockedState c.op)) l).set c.slot RWMutex.free) _ = _
    rw [set_acquired_comm l c.slot _ _ hnd.1, List.set_set, set_of_getElem? table _ _ hc]
    exact ih table (fun d hd => hop d (List.mem_cons_of_mem _ hd)) hnd.2
      (fun d hd => hfree d (List.mem_cons_of_mem _ hd))

theorem release_map_RWLocks (locks : Locks) (w r : List GoString) :
    (locks.RWUnLocks w r).calls = (locks.RWLocks w r).calls.map Call.release := by
  by_cases hne : locks.table = []
  · obtain ⟨h1, h2, _⟩ := RWLocks_of_empty locks hne w r
    rw [h1, h2]; rfl
  · rw [RWLocks_eq locks hne, RWUnLocks_eq locks hne]
    simp only [List.map_map]
    apply List.map_congr_left
    intro i _
    by_cases hi : i ∈ locks.toLockIndices w false <;> simp [hi, Call.release, Op.release]

theorem RWLocks_calls_acquire (locks : Locks) (w r : List GoString) :
    (∀ c, c ∈ (locks.RWLocks w r).calls → c.op = .Lock ∨ c.op = .RLock) ∧
    ((locks.RWLocks w r).calls.map Call.slot).Nodup ∧
    (∀ c, c ∈ (locks.RWLocks w r).calls → c.slot < locks.table.length) := by
  by_cases hne : locks.table = []
  · rw [(RWLocks_of_empty locks hne w r).1]
    simp
  · rw [RWLocks_eq locks hne]
    refine ⟨?_, ?_, ?_⟩
    · intro c hc
      simp only [List.mem_map] at hc
      obtain ⟨i, _, rfl⟩ := hc
      by_cases hi : i ∈ locks.toLockIndices w false <;> simp [hi]
    · simp only [List.map_map, Function.comp_def, List.map_id']
      exact toLockIndices_nodup locks _ false
    · intro c hc
      simp only [List.mem_map] at hc
      obtain ⟨i, hi, rfl⟩ := hc
      exact toLockIndices_lt locks hne _ false i hi

end lock

namespace lock

/-- C16: for every lock table and all key lists, `RWUnLocks(writeKeys, readKeys)` makes, slot
by slot, the release that matches the acquisition of `RWLocks(writeKeys, readKeys)`:
`Unlock` where `RWLocks` called `Lock`, `RUnlock` where it called `RLock`, on the same
distinct slots, and it panics exactly when `RWLocks` does. On a table whose slots are all
free, the acquisitions of `RWLocks` all return, and `RWLocks` followed by `RWUnLocks`
ends without blocking and without a fatal error and leaves the table as it was. -/
theorem RWUnLocks_matches_RWLocks (locks : Locks)
    (hfree : ∀ m, m ∈ locks.table → m = RWMutex.free) (writeKeys readKeys : List GoString) :
    (locks.RWUnLocks writeKeys readKeys).calls =
      (locks.RWLocks writeKeys readKeys).calls.map Call.release ∧
    (locks.RWUnLocks writeKeys readKeys).panic = (locks.RWLocks writeKeys readKeys).panic ∧
    (∀ c, c ∈ (locks.RWLocks writeKeys readKeys).calls → c.op = .Lock ∨ c.op = .RLock) ∧
    (locks.RWLocks writeKeys readKeys).slots.Nodup ∧
    run locks.table (locks.RWLocks writeKeys readKeys).calls =
      .done (acquired locks.table (locks.RWLocks writeKeys readKeys).calls) ∧
    run locks.table ((locks.RWLocks writeKeys readKeys).calls ++
      (locks.RWUnLocks writeKeys readKeys).calls) = .done locks.table := by
  obtain ⟨hop, hnd, hlt⟩ := RWLocks_calls_acquire locks writeKeys readKeys
  have hget : ∀ c, c ∈ (locks.RWLocks writeKeys readKeys).calls →
      locks.table[c.slot]? = some RWMutex.free := by
    intro c hc
    rw [List.getElem?_eq_some]
    exact ⟨hlt c hc, hfree _ (List.getElem_mem _)⟩
  have hpanic : (locks.RWUnLocks writeKeys readKeys).panic =
      (locks.RWLocks writeKeys readKeys).panic := by
    by_cases hne : locks.table = []
    · exact (RWLocks_of_empty locks hne writeKeys readKeys).2.2
    · rw [RWLocks_eq locks hne, RWUnLocks_eq locks hne]
  refine ⟨release_map_RWLocks locks writeKeys readKeys, hpanic, hop, hnd, ?_, ?_⟩
  · have := run_acquire [] _ locks.table hop hnd hget
    rw [List.append_nil] at this
    rw [this]; rfl
  · rw [release_map_RWLocks, run_acquire _ _ locks.table hop hnd hget]
    have := run_release [] _ locks.table hop hnd hget
    rw [List.append_nil] at this
    rw [this]; rfl

/-- Witness of `RWUnLocks_matches_RWLocks`: 16 free slots, write key "a", read key "b". -/
theorem RWUnLocks_matches_RWLocks_witness :
    (∀ m, m ∈ table16.table → m = RWMutex.free) ∧
    ((table16.RWUnLocks [[97]] [[98]]).calls =
      (table16.RWLocks [[97]] [[98]]).calls.map Call.release ∧
    (table16.RWUnLocks [[97]] [[98]]).panic = (table16.RWLocks [[97]] [[98]]).panic ∧
    (∀ c, c ∈ (table16.RWLocks [[97]] [[98]]).calls → c.op = .Lock ∨ c.op = .RLock) ∧
    (table16.RWLocks [[97]] [[98]]).slots.Nodup ∧
    run table16.table (table16.RWLocks [[97]] [[98]]).calls =
      .done (acquired table16.table (table16.RWLocks [[97]] [[98]]).calls) ∧
    run table16.table ((table16.RWLocks [[97]] [[98]]).calls ++
      (table16.RWUnLocks [[97]] [[98]]).calls) = .done table16.table) :=
  ⟨fun _ hm => List.eq_of_mem_replicate hm,
    RWUnLocks_matches_RWLocks table16 (fun _ hm => List.eq_of_mem_replicate hm) [[97]] [[98]]⟩

/-- C18: `RWUnLocks` does not release in the reverse of the acquisition order: for every lock
table and all key lists it touches the slots in exactly the order in which `RWLocks`
touches them; with 16 slots, `RWLocks(["a"], ["b"])` acquires slot 14 and then slot 13, and
`RWUnLocks(["a"], ["b"])` releases slot 14 and then slot 13, whereas `UnLocks("a", "b")`
releases slot 13 and then slot 14. -/
theorem RWUnLocks_same_order (locks : Locks) (writeKeys readKeys : List GoString) :
    (locks.RWUnLocks writeKeys readKeys).slots = (locks.RWLocks writeKeys readKeys).slots ∧
    (table16.RWLocks [[97]] [[98]]).slots = [14, 13] ∧
    (table16.RWUnLocks [[97]] [[98]]).slots = [14, 13] ∧
    (table16.RWUnLocks [[97]] [[98]]).slots ≠ (table16.RWLocks [[97]] [[98]]).slots.reverse ∧
    (table16.UnLocks [[97], [98]]).slots = [13, 14] := by
  refine ⟨?_, by decide, by decide, by decide, by decide⟩
  unfold Trace.slots
  rw [release_map_RWLocks, List.map_map]
  rfl

end lock

namespace lock

theorem callSlot_of_lt (locks : Locks) (index : Nat) (op : Op)
    (h : index < locks.table.length) :
    locks.callSlot index op = { calls := [{ slot := index, op := op }], panic := none } := by
  simp [Locks.callSlot, h]

theorem Make_of_pos (n : Int) (hn : 1 ≤ n) :
    ∃ l : Locks, Make n = .ok l ∧ (l.table.length : Int) = n ∧ l.table ≠ [] := by
  refine ⟨{ table := List.replicate n.toNat RWMutex.free }, ?_, ?_, ?_⟩
  · unfold Make
    rw [if_neg (by omega)]
    rfl
  · simp only [List.length_replicate]
    omega
  · intro h
    have := congrArg List.length h
    simp only [List.length_replicate, List.length_nil] at this
    omega

/-- C20: `Make(n)` with `n >= 1` returns a table of `n` slots. On a non-empty lock table
every 32-bit hash is routed to an existing slot, so
`Lock`, `RLock`, `UnLock` and `RUnLock` make their call without a panic and every index of
`toLockIndices` is below the table length; for a table length below `2^32` the index is
`(n - 1) & h`; on the empty table `spread(h) = h` and `Lock` panics. For the dictionary
the same mask arithmetic stays below the number of shards, but `spread` of a dictionary
with a non-empty shard table returns no index: it panics with "table is nil". -/
theorem spread_in_bounds (V : Type) (locks : Locks) (hne : locks.table ≠ [])
    (t : List (dict.shard V)) (ht : t ≠ []) (count shardCount : Int)
    (h : Nat) (hh : h < 2 ^ 32) (key : GoString) (keys : List GoString) (reverse : Bool) :
    (∀ n : Int, 1 ≤ n →
      ∃ l : Locks, Make n = .ok l ∧ (l.table.length : Int) = n ∧ l.table ≠ []) ∧
    locks.spread h < locks.table.length ∧
    (locks.table.length < 2 ^ 32 → locks.spread h = (locks.table.length - 1) &&& h) ∧
    locks.Lock key =
      { calls := [{ slot := locks.spread (fnv32 key), op := .Lock }], panic := none } ∧
    locks.RLock key =
      { calls := [{ slot := locks.spread (fnv32 key), op := .RLock }], panic := none } ∧
    locks.UnLock key =
      { calls := [{ slot := locks.spread (fnv32 key), op := .Unlock }], panic := none } ∧
    locks.RUnLock key =
      { calls := [{ slot := locks.spread (fnv32 key), op := .RUnlock }], panic := none } ∧
    (∀ i, i ∈ locks.toLockIndices keys reverse → i < locks.table.length) ∧
    (({ table := [] } : Locks).spread h = h ∧
      ({ table := [] } : Locks).Lock key =
        { calls := [], panic := some "runtime error: index out of range" }) ∧
    dict.spreadIndex t.length h < t.length ∧
    ({ table := some t, count := count, shardCount := shardCount } :
      dict.ConcurrentDict V).spread h = .error "table is nil" := by
  have hk := spread_lt locks hne (fnv32_lt key)
  have hempty : ∀ x, x < 2 ^ 32 → ({ table := [] } : Locks).spread x = x := by
    intro x hx
    show (wrapUint32 (wrapUint32 0 + 2 ^ 32 - 1)) &&& x = x
    have e : wrapUint32 (wrapUint32 0 + 2 ^ 32 - 1) = 2 ^ 32 - 1 := by decide
    rw [e, Nat.and_comm, Nat.and_pow_two_sub_one_eq_mod, Nat.mod_eq_of_lt hx]
  refine ⟨Make_of_pos, spread_lt locks hne hh, ?_, callSlot_of_lt locks _ _ hk,
    callSlot_of_lt locks _ _ hk,
    callSlot_of_lt locks _ _ hk, callSlot_of_lt locks _ _ hk,
    toLockIndices_lt locks hne keys reverse, ⟨hempty h hh, ?_⟩,
    mask_lt (List.length_pos.2 ht) hh, rfl⟩
  · intro hlt
    have hpos : 0 < locks.table.length := List.length_pos.2 hne
    have e : wrapUint32 (wrapUint32 locks.table.length + 2 ^ 32 - 1) =
        locks.table.length - 1 := by
      unfold wrapUint32
      rw [Nat.mod_eq_of_lt hlt]
      omega
    unfold Locks.spread
    simp only [e]
  · simp [Locks.Lock, Locks.callSlot]

/-- Witness of `spread_in_bounds`: 16 slots, 16 shards, the hash of "a" and the key "a". -/
theorem spread_in_bounds_witness :
    (table16.table ≠ [] ∧ List.replicate 16 ({ m := [] } : dict.shard Int) ≠ [] ∧
      fnv32 [97] < 2 ^ 32) ∧
    ((∀ n : Int, 1 ≤ n →
      ∃ l : Locks, Make n = .ok l ∧ (l.table.length : Int) = n ∧ l.table ≠ []) ∧
    table16.spread (fnv32 [97]) < table16.table.length ∧
    (table16.table.length < 2 ^ 32 →
      table16.spread (fnv32 [97]) = (table16.table.length - 1) &&& fnv32 [97]) ∧
    table16.Lock [97] =
      { calls := [{ slot := table16.spread (fnv32 [97]), op := .Lock }], panic := none } ∧
    table16.RLock [97] =
      { calls := [{ slot := table16.spread (fnv32 [97]), op := .RLock }], panic := none } ∧
    table16.UnLock [97] =
      { calls := [{ slot := table16.spread (fnv32 [97]), op := .Unlock }], panic := none } ∧
    table16.RUnLock [97] =
      { calls := [{ slot := table16.spread (fnv32 [97]), op := .RUnlock }], panic := none } ∧
    (∀ i, i ∈ table16.toLockIndices [[97], [98]] false → i < table16.table.length) ∧
    (({ table := [] } : Locks).spread (fnv32 [97]) = fnv32 [97] ∧
      ({ table := [] } : Locks).Lock [97] =
        { calls := [], panic := some "runtime error: index out of range" }) ∧
    dict.spreadIndex (List.replicate 16 ({ m := [] } : dict.shard Int)).length (fnv32 [97])
      < (List.replicate 16 ({ m := [] } : dict.shard Int)).length ∧
    ({ table := some (List.replicate 16 { m := [] }), count := 0, shardCount := 16 } :
      dict.ConcurrentDict Int).spread (fnv32 [97]) = .error "table is nil") :=
  ⟨⟨by decide, by simp, by decide⟩,
    spread_in_bounds Int table16 (by decide) (List.replicate 16 { m := [] }) (by simp) 0 16
      (fnv32 [97]) (by decide) [97] [[97], [98]] false⟩

end lock

/-! ## Two goroutines on one lock table -/

namespace lock

theorem holds_iff (t : Thread) (i : Nat) (op : Op) :
    t.holds i op = true ↔
      ({ slot := i, op := op } : Call) ∈ t.rel ∧ i ∉ t.acq.map Call.slot := by
  simp [Thread.holds]

theorem holds_false_of_mem_acq (t : Thread) (i : Nat) (op : Op)
    (h : i ∈ t.acq.map Call.slot) : t.holds i op = false := by
  rw [← Bool.not_eq_true, holds_iff]
  exact fun hh => hh.2 h

theorem mutexOf_comm (x y : Thread) (i : Nat) : mutexOf x y i = mutexOf y x i := by
  simp [mutexOf, Bool.or_comm, Nat.add_comm]

theorem Thread.WF.eq_of_slot {n : Nat} {t : Thread} (w : t.WF n) {c d : Call}
    (hc : c ∈ t.rel) (hd : d ∈ t.rel) (h : c.slot = d.slot) : c = d :=
  List.inj_on_of_nodup_map w.rel_nodup hc hd h

/-- At most one kind of release is pending on a slot. -/
theorem Thread.WF.holds_unique {n : Nat} {t : Thread} (w : t.WF n) {i : Nat} {op op1 : Op}
    (h : t.holds i op = true) (h1 : t.holds i op1 = true) : op = op1 := by
  have e := w.eq_of_slot ((holds_iff t i op).1 h).1 ((holds_iff t i op1).1 h1).1 rfl
  exact congrArg Call.op e

theorem Inv.symm {table : List RWMutex} {a b : List Call} {x y : Thread}
    (h : Inv { table := table, a := a, b := b } x y) :
    Inv { table := table, a := b, b := a } y x where
  ha := h.hb
  hb := h.ha
  wx := h.wy
  wy := h.wx
  tbl := fun i hi => by rw [mutexOf_comm]; exact h.tbl i hi
  excl_x := h.excl_y
  excl_y := h.excl_x

theorem applyCall_eq (table : List RWMutex) (c : Call) (m : RWMutex)
    (h : table[c.slot]? = some m) :
    applyCall table c =
      match m.call c.op with
      | .ok m1 => .done (table.set c.slot m1)
      | .blocks => .blocked
      | .fatal msg => .fatal msg := by
  simp [applyCall, h]

end lock

namespace lock

theorem call_eta (c : Call) : ({ slot := c.slot, op := c.op } : Call) = c := rfl

/-- A goroutine that has only releases left makes its next release without blocking and
without a fatal error, and the invariant holds afterwards. -/
theorem Inv.release_step {table : List RWMutex} {a b : List Call} {x y : Thread}
    (h : Inv { table := table, a := a, b := b } x y) {c : Call} {rest : List Call}
    (hacq : x.acq = []) (hrel : x.rel = c :: rest) :
    ∃ t1, applyCall table c = .done t1 ∧
      Inv { table := t1, a := rest, b := b } { acq := [], rel := rest } y := by
  have hc : c ∈ x.rel := by rw [hrel]; exact List.mem_cons_self _ _
  have hlt : c.slot < table.length := h.wx.lt c hc
  have hm := h.tbl c.slot hlt
  have hnd : c.slot ∉ rest.map Call.slot ∧ (rest.map Call.slot).Nodup := by
    have := h.wx.rel_nodup
    rw [hrel, List.map_cons, List.nodup_cons] at this
    exact this
  have hx : x.holds c.slot c.op = true := by
    rw [holds_iff, call_eta, hacq]
    exact ⟨hc, by simp⟩
  -- the holdings of the goroutine after the release
  have F1 : ∀ i op, Thread.holds { acq := [], rel := rest } i op = true →
      x.holds i op = true := by
    intro i op hh
    rw [holds_iff] at hh ⊢
    rw [hrel, hacq]
    exact ⟨List.mem_cons_of_mem _ hh.1, by simp⟩
  have F1' : ∀ i op, x.holds i op = false →
      Thread.holds { acq := [], rel := rest } i op = false := by
    intro i op hh
    rw [← Bool.not_eq_true] at hh ⊢
    exact fun h1 => hh (F1 i op h1)
  have F2 : ∀ i op, i ≠ c.slot →
      Thread.holds { acq := [], rel := rest } i op = x.holds i op := by
    intro i op hi
    rw [Bool.eq_iff_iff, holds_iff, holds_iff, hrel, hacq]
    constructor
    · rintro ⟨h1, _⟩; exact ⟨List.mem_cons_of_mem _ h1, by simp⟩
    · rintro ⟨h1, _⟩
      rcases List.mem_cons.1 h1 with e | e
      · exact absurd (congrArg Call.slot e) hi
      · exact ⟨e, by simp⟩
  have F3 : ∀ op, Thread.holds { acq := [], rel := rest } c.slot op = false := by
    intro op
    rw [← Bool.not_eq_true, holds_iff]
    rintro ⟨h1, _⟩
    exact hnd.1 (List.mem_map.2 ⟨_, h1, rfl⟩)
  have wx' : Thread.WF table.length { acq := [], rel := rest } :=
    { acq_op := by intro d hd; cases hd
      rel_op := fun d hd => h.wx.rel_op d (by rw [hrel]; exact List.mem_cons_of_mem _ hd)
      acq_sorted := List.sorted_nil
      rel_nodup := hnd.2
      acq_rel := by intro d hd; cases hd
      held_gt := by intro r _ _ d hd; cases hd
      lt := fun d hd => h.wx.lt d (by rw [hrel]; exact List.mem_cons_of_mem _ hd) }
  -- the mutex after the release is the one that the new holdings give
  have key : ∃ m1, (mutexOf x y c.slot).call c.op = .ok m1 ∧
      m1 = mutexOf { acq := [], rel := rest } y c.slot := by
    rcases h.wx.rel_op c hc with hop | hop
    · rw [hop] at hx
      have hxR : x.holds c.slot .RUnlock = false := by
        rw [← Bool.not_eq_true]
        intro h1
        exact absurd (h.wx.holds_unique hx h1) (by decide)
      obtain ⟨hyU, hyR⟩ := h.excl_x c.slot hx
      refine ⟨{ writer := false, readers := 0 }, ?_, ?_⟩
      · simp [hop, RWMutex.call, RWMutex.Unlock, mutexOf, hx, hxR, hyU, hyR]
      · simp [mutexOf, F3, hyU, hyR]
    · rw [hop] at hx
      have hxU : x.holds c.slot .Unlock = false := by
        rw [← Bool.not_eq_true]
        intro h1
        exact absurd (h.wx.holds_unique hx h1) (by decide)
      have hyU : y.holds c.slot .Unlock = false := by
        rw [← Bool.not_eq_true]
        intro h1
        have := (h.excl_y c.slot h1).2
        rw [hx] at this
        cases this
      refine ⟨{ writer := false,
                readers := if y.holds c.slot .RUnlock then 1 else 0 }, ?_, ?_⟩
      · cases hyR : y.holds c.slot .RUnlock <;>
          simp [hop, RWMutex.call, RWMutex.RUnlock, mutexOf, hx, hxU, hyU, hyR]
      · simp [mutexOf, F3, hyU]
  obtain ⟨m1, hcall, hm1⟩ := key
  refine ⟨table.set c.slot m1, ?_, ?_⟩
  · rw [applyCall_eq table c _ hm, hcall]
  · refine
      { ha := rfl
        hb := h.hb
        wx := by simpa using wx'
        wy := by simpa using h.wy
        tbl := ?_
        excl_x := fun i hi => h.excl_x i (F1 i _ hi)
        excl_y := fun i hi => ⟨F1' i _ (h.excl_y i hi).1, F1' i _ (h.excl_y i hi).2⟩ }
    intro i hi
    have hi' : i < table.length := by simpa using hi
    show (table.set c.slot m1)[i]? = _
    by_cases hic : i = c.slot
    · subst hic
      rw [List.getElem?_set_self hlt, hm1]
    · rw [List.getElem?_set_ne (fun e => hic e.symm), h.tbl i hi']
      simp [mutexOf, F2 i _ hic]

end lock

namespace lock

/-- A goroutine that has acquisitions left either makes its next acquisition, and the
invariant holds afterwards, or blocks on a slot that the other goroutine holds. -/
theorem Inv.acquire_step {table : List RWMutex} {a b : List Call} {x y : Thread}
    (h : Inv { table := table, a := a, b := b } x y) {c : Call} {acq' : List Call}
    (hacq : x.acq = c :: acq') :
    (∃ t1, applyCall table c = .done t1 ∧
      Inv { table := t1, a := acq' ++ x.rel, b := b } { acq := acq', rel := x.rel } y) ∨
    (applyCall table c = .blocked ∧
      (y.holds c.slot .Unlock = true ∨ y.holds c.slot .RUnlock = true)) := by
  have hc : c ∈ x.acq := by rw [hacq]; exact List.mem_cons_self _ _
  have hcr : c.release ∈ x.rel := h.wx.acq_rel c hc
  have hlt : c.slot < table.length := h.wx.lt c.release hcr
  have hm := h.tbl c.slot hlt
  have hxF : ∀ op, x.holds c.slot op = false := fun op =>
    holds_false_of_mem_acq x c.slot op (List.mem_map.2 ⟨c, hc, rfl⟩)
  have hs : (∀ d, d ∈ acq'.map Call.slot → d < c.slot) ∧
      (acq'.map Call.slot).Sorted (· > ·) := by
    have := h.wx.acq_sorted
    rw [hacq, List.map_cons, List.sorted_cons] at this
    exact this
  have hnot : c.slot ∉ acq'.map Call.slot := fun hh => Nat.lt_irrefl _ (hs.1 _ hh)
  have G2 : ∀ i op, i ≠ c.slot →
      Thread.holds { acq := acq', rel := x.rel } i op = x.holds i op := by
    intro i op hi
    rw [Bool.eq_iff_iff, holds_iff, holds_iff, hacq, List.map_cons, List.mem_cons, not_or]
    constructor
    · rintro ⟨h1, h2⟩; exact ⟨h1, hi, h2⟩
    · rintro ⟨h1, _, h2⟩; exact ⟨h1, h2⟩
  have G3 : Thread.holds { acq := acq', rel := x.rel } c.slot c.op.release = true := by
    rw [holds_iff]; exact ⟨hcr, hnot⟩
  have G3' : ∀ op, op ≠ c.op.release →
      Thread.holds { acq := acq', rel := x.rel } c.slot op = false := by
    intro op hop
    rw [← Bool.not_eq_true, holds_iff]
    rintro ⟨h1, _⟩
    exact hop (congrArg Call.op (h.wx.eq_of_slot h1 hcr rfl))
  have wx' : Thread.WF table.length { acq := acq', rel := x.rel } :=
    { acq_op := fun d hd => h.wx.acq_op d (by rw [hacq]; exact List.mem_cons_of_mem _ hd)
      rel_op := h.wx.rel_op
      acq_sorted := hs.2
      rel_nodup := h.wx.rel_nodup
      acq_rel := fun d hd => h.wx.acq_rel d (by rw [hacq]; exact List.mem_cons_of_mem _ hd)
      held_gt := by
        intro r hr hnr d hd
        by_cases hrc : r.slot = c.slot
        · rw [hrc]; exact hs.1 _ (List.mem_map.2 ⟨d, hd, rfl⟩)
        · apply h.wx.held_gt r hr _ d (by rw [hacq]; exact List.mem_cons_of_mem _ hd)
          rw [hacq, List.map_cons, List.mem_cons, not_or]
          exact ⟨hrc, hnr⟩
      lt := h.wx.lt }
  have key : (∃ m1, (mutexOf x y c.slot).call c.op = .ok m1 ∧
        m1 = mutexOf { acq := acq', rel := x.rel } y c.slot ∧
        y.holds c.slot .Unlock = false ∧
        (Thread.holds { acq := acq', rel := x.rel } c.slot .Unlock = true →
          y.holds c.slot .RUnlock = false)) ∨
      ((mutexOf x y c.slot).call c.op = .blocks ∧
        (y.holds c.slot .Unlock = true ∨ y.holds c.slot .RUnlock = true)) := by
    rcases h.wx.acq_op c hc with hop | hop
    · have g3 : Thread.holds { acq := acq', rel := x.rel } c.slot .Unlock = true := by
        have := G3; rw [hop] at this; exact this
      have g3' : Thread.holds { acq := acq', rel := x.rel } c.slot .RUnlock = false :=
        G3' _ (by rw [hop]; decide)
      cases hyU : y.holds c.slot .Unlock <;> cases hyR : y.holds c.slot .RUnlock
      · left
        refine ⟨{ writer := true, readers := 0 }, ?_, ?_, rfl, fun _ => rfl⟩
        · simp [hop, RWMutex.call, RWMutex.Lock, mutexOf, hxF, hyU, hyR]
        · simp [mutexOf, g3, g3', hyU, hyR]
      · right
        exact ⟨by simp [hop, RWMutex.call, RWMutex.Lock, mutexOf, hxF, hyU, hyR], Or.inr rfl⟩
      · right
        exact ⟨by simp [hop, RWMutex.call, RWMutex.Lock, mutexOf, hxF, hyU, hyR], Or.inl rfl⟩
      · right
        exact ⟨by simp [hop, RWMutex.call, RWMutex.Lock, mutexOf, hxF, hyU, hyR], Or.inl rfl⟩
    · have g3 : Thread.holds { acq := acq', rel := x.rel } c.slot .RUnlock = true := by
        have := G3; rw [hop] at this; exact this
      have g3' : Thread.holds { acq := acq', rel := x.rel } c.slot .Unlock = false :=
        G3' _ (by rw [hop]; decide)
      cases hyU : y.holds c.slot .Unlock
      · left
        refine ⟨{ writer := false,
                  readers := (if y.holds c.slot .RUnlock then 1 else 0) + 1 }, ?_, ?_, rfl, ?_⟩
        · simp [hop, RWMutex.call, RWMutex.RLock, mutexOf, hxF, hyU]
        · simp [mutexOf, g3, g3', hyU, Nat.add_comm]
        · intro hh; rw [g3'] at hh; cases hh
      · right
        exact ⟨by simp [hop, RWMutex.call, RWMutex.RLock, mutexOf, hxF, hyU], Or.inl rfl⟩
  rcases key with ⟨m1, hcall, hm1, hyU, hyR⟩ | ⟨hcall, hy⟩
  · left
    refine ⟨table.set c.slot m1, by rw [applyCall_eq table c _ hm, hcall], ?_⟩
    refine
      { ha := rfl
        hb := h.hb
        wx := by simpa using wx'
        wy := by simpa using h.wy
        tbl := ?_
        excl_x := ?_
        excl_y := ?_ }
    · intro i hi
      have hi' : i < table.length := by simpa using hi
      show (table.set c.slot m1)[i]? = _
      by_cases hic : i = c.slot
      · subst hic
        rw [List.getElem?_set_self hlt, hm1]
      · rw [List.getElem?_set_ne (fun e => hic e.symm), h.tbl i hi']
        simp [mutexOf, G2 i _ hic]
    · intro i hi
      by_cases hic : i = c.slot
      · subst hic
        exact ⟨hyU, hyR hi⟩
      · rw [G2 i _ hic] at hi
        exact h.excl_x i hi
    · intro i hi
      have hic : i ≠ c.slot := by
        rintro rfl
        rw [hyU] at hi; cases hi
      rw [G2 i _ hic, G2 i _ hic]
      exact h.excl_y i hi
  · right
    exact ⟨by rw [applyCall_eq table c _ hm, hcall], hy⟩

end lock

namespace lock

/-- The next call of the first goroutine either returns, and the invariant holds afterwards,
or it is an acquisition that blocks on a slot that the second goroutine holds. -/
theorem Inv.next {table : List RWMutex} {c : Call} {rest b : List Call} {x y : Thread}
    (h : Inv { table := table, a := c :: rest, b := b } x y) :
    (∃ t1 x', applyCall table c = .done t1 ∧ Inv { table := t1, a := rest, b := b } x' y) ∨
    (applyCall table c = .blocked ∧ c ∈ x.acq ∧
      (y.holds c.slot .Unlock = true ∨ y.holds c.slot .RUnlock = true)) := by
  have ha : c :: rest = x.acq ++ x.rel := h.ha
  cases hx : x.acq with
  | nil =>
    rw [hx, List.nil_append] at ha
    obtain ⟨t1, h1, h2⟩ := h.release_step hx ha.symm
    exact Or.inl ⟨t1, _, h1, h2⟩
  | cons c' acq' =>
    rw [hx, List.cons_append] at ha
    obtain ⟨rfl, hrest⟩ := List.cons.inj ha
    rcases h.acquire_step hx with ⟨t1, h1, h2⟩ | ⟨h1, h2⟩
    · exact Or.inl ⟨t1, _, h1, by rw [hrest]; exact h2⟩
    · exact Or.inr ⟨h1, List.mem_cons_self _ _, h2⟩

/-- Every step keeps the invariant. -/
theorem Inv.step {s s1 : System} (hstep : Step s s1) {x y : Thread} (h : Inv s x y) :
    ∃ x' y', Inv s1 x' y' := by
  cases hstep with
  | stepA table c rest b t1 hdone =>
    rcases h.next with ⟨t1', x', h1, h2⟩ | ⟨h1, _⟩
    · rw [hdone] at h1
      cases h1
      exact ⟨x', y, h2⟩
    · rw [hdone] at h1; cases h1
  | stepB table c a rest t1 hdone =>
    rcases h.symm.next with ⟨t1', y', h1, h2⟩ | ⟨h1, _⟩
    · rw [hdone] at h1
      cases h1
      exact ⟨x, y', h2.symm⟩
    · rw [hdone] at h1; cases h1

theorem holds_of_rel_nil (t : Thread) (h : t.rel = []) (i : Nat) (op : Op) :
    t.holds i op = false := by
  rw [← Bool.not_eq_true, holds_iff, h]
  simp

/-- A held slot lies above every slot that the goroutine has still to acquire. -/
theorem Thread.WF.lt_of_holds {n : Nat} {t : Thread} (w : t.WF n) {i : Nat}
    (hh : t.holds i .Unlock = true ∨ t.holds i .RUnlock = true) {c : Call} (hc : c ∈ t.acq) :
    c.slot < i := by
  rcases hh with hh | hh
  · obtain ⟨h1, h2⟩ := (holds_iff t i _).1 hh
    exact w.held_gt _ h1 h2 c hc
  · obtain ⟨h1, h2⟩ := (holds_iff t i _).1 hh
    exact w.held_gt _ h1 h2 c hc

/-- No deadlock: in a state that satisfies the invariant, both goroutines have made all
their calls, or one of them can make its next call. -/
theorem Inv.progress {s : System} {x y : Thread} (h : Inv s x y) :
    (s.a = [] ∧ s.b = []) ∨ ∃ s1, Step s s1 := by
  obtain ⟨table, a, b⟩ := s
  cases a with
  | nil =>
    cases b with
    | nil => exact Or.inl ⟨rfl, rfl⟩
    | cons d rest =>
      right
      rcases h.symm.next with ⟨t1, _, h1, _⟩ | ⟨_, _, h3⟩
      · exact ⟨_, Step.stepB table d [] rest t1 h1⟩
      · have hnil : x.rel = [] := by
          have := h.ha
          exact (List.append_eq_nil.1 this.symm).2
        rw [holds_of_rel_nil x hnil, holds_of_rel_nil x hnil] at h3
        rcases h3 with h3 | h3 <;> cases h3
  | cons c rest =>
    right
    rcases h.next with ⟨t1, _, h1, _⟩ | ⟨_, hcx, hy⟩
    · exact ⟨_, Step.stepA table c rest b t1 h1⟩
    · cases b with
      | nil =>
        have hnil : y.rel = [] := by
          have := h.hb
          exact (List.append_eq_nil.1 this.symm).2
        rw [holds_of_rel_nil y hnil, holds_of_rel_nil y hnil] at hy
        rcases hy with hy | hy <;> cases hy
      | cons d rest' =>
        rcases h.symm.next with ⟨t1, _, h1, _⟩ | ⟨_, hdy, hx⟩
        · exact ⟨_, Step.stepB table d (c :: rest) rest' t1 h1⟩
        · have h1 : c.slot < d.slot := h.wx.lt_of_holds hx hcx
          have h2 : d.slot < c.slot := h.wy.lt_of_holds hy hdy
          omega

theorem Step.measure {s s1 : System} (hstep : Step s s1) :
    s1.a.length + s1.b.length + 1 = s.a.length + s.b.length := by
  cases hstep with
  | stepA table c rest b t1 _ => simp only [List.length_cons]; omega
  | stepB table c a rest t1 _ => simp only [List.length_cons]; omega

/-- When both goroutines have made all their calls, every mutex is free. -/
theorem Inv.free_of_done {s : System} {x y : Thread} (h : Inv s x y)
    (ha : s.a = []) (hb : s.b = []) : ∀ m, m ∈ s.table → m = RWMutex.free := by
  intro m hm
  obtain ⟨i, hi, rfl⟩ := List.getElem_of_mem hm
  have hx : x.rel = [] := (List.append_eq_nil.1 (ha ▸ h.ha).symm).2
  have hy : y.rel = [] := (List.append_eq_nil.1 (hb ▸ h.hb).symm).2
  have := h.tbl i hi
  rw [List.getElem?_eq_getElem hi, Option.some.injEq] at this
  rw [this]
  simp [mutexOf, holds_of_rel_nil x hx, holds_of_rel_nil y hy, RWMutex.free]

/-- From a state that satisfies the invariant the system can run until both goroutines have
made all their calls. -/
theorem Inv.completes : ∀ (n : Nat) (s : System) (x y : Thread), Inv s x y →
    s.a.length + s.b.length = n →
    ∃ sf, Relation.ReflTransGen Step s sf ∧ sf.a = [] ∧ sf.b = [] ∧
      ∀ m, m ∈ sf.table → m = RWMutex.free := by
  intro n
  induction n with
  | zero =>
    intro s x y h hn
    have ha : s.a = [] := List.length_eq_zero.1 (by omega)
    have hb : s.b = [] := List.length_eq_zero.1 (by omega)
    exact ⟨s, Relation.ReflTransGen.refl, ha, hb, h.free_of_done ha hb⟩
  | succ n ih =>
    intro s x y h hn
    rcases h.progress with ⟨ha, hb⟩ | ⟨s1, hstep⟩
    · exact ⟨s, Relation.ReflTransGen.refl, ha, hb, h.free_of_done ha hb⟩
    · obtain ⟨x', y', h'⟩ := h.step hstep
      have hm := hstep.measure
      obtain ⟨sf, hr, hf⟩ := ih s1 x' y' h' (by omega)
      exact ⟨sf, Relation.ReflTransGen.head hstep hr, hf⟩

end lock

namespace lock

/-- The calls of an acquisition over the descending list `l` and of the matching releases
over a list `l'` of the same slots form a well-formed session that holds nothing yet. -/
theorem wf_of_lists (n : Nat) (l l' : List Nat) (f g : Nat → Op)
    (hf : ∀ i, f i = .Lock ∨ f i = .RLock) (hg : ∀ i, g i = (f i).release)
    (hl : l.Sorted (· > ·)) (hl' : l'.Nodup) (hmem : ∀ i, i ∈ l ↔ i ∈ l')
    (hlt : ∀ i, i ∈ l' → i < n) :
    Thread.WF n { acq := l.map (fun i => { slot := i, op := f i }),
                  rel := l'.map (fun i => { slot := i, op := g i }) } ∧
    ∀ i op, Thread.holds { acq := l.map (fun i => { slot := i, op := f i }),
                           rel := l'.map (fun i => { slot := i, op := g i }) } i op = false := by
  have hslots : (l.map (fun i => ({ slot := i, op := f i } : Call))).map Call.slot = l := by
    simp [Function.comp_def]
  have hslots' : (l'.map (fun i => ({ slot := i, op := g i } : Call))).map Call.slot = l' := by
    simp [Function.comp_def]
  have hin : ∀ r, r ∈ l'.map (fun i => ({ slot := i, op := g i } : Call)) →
      r.slot ∈ (l.map (fun i => ({ slot := i, op := f i } : Call))).map Call.slot := by
    intro r hr
    obtain ⟨i, hi, rfl⟩ := List.mem_map.1 hr
    rw [hslots]; exact (hmem i).2 hi
  refine ⟨{ acq_op := ?_, rel_op := ?_, acq_sorted := ?_, rel_nodup := ?_, acq_rel := ?_,
            held_gt := ?_, lt := ?_ }, ?_⟩
  · intro c hc
    obtain ⟨i, _, rfl⟩ := List.mem_map.1 hc
    exact hf i
  · intro c hc
    obtain ⟨i, _, rfl⟩ := List.mem_map.1 hc
    show g i = .Unlock ∨ g i = .RUnlock
    rw [hg]
    rcases hf i with e | e <;> rw [e]
    · exact Or.inl rfl
    · exact Or.inr rfl
  · show ((l.map (fun i => ({ slot := i, op := f i } : Call))).map Call.slot).Sorted (· > ·)
    rw [hslots]; exact hl
  · show ((l'.map (fun i => ({ slot := i, op := g i } : Call))).map Call.slot).Nodup
    rw [hslots']; exact hl'
  · intro c hc
    obtain ⟨i, hi, rfl⟩ := List.mem_map.1 hc
    exact List.mem_map.2 ⟨i, (hmem i).1 hi, by simp [Call.release, hg]⟩
  · intro r hr hnot
    exact absurd (hin r hr) hnot
  · intro c hc
    obtain ⟨i, hi, rfl⟩ := List.mem_map.1 hc
    exact hlt i hi
  · intro i op
    rw [← Bool.not_eq_true, holds_iff]
    rintro ⟨h1, h2⟩
    exact h2 (hin _ h1)

/-- The calls of a session are an acquisition over a descending slot list and the matching
releases over the same slots. -/
theorem session_lists (locks : Locks) {acq rel : List Call} (h : IsSession locks acq rel) :
    ∃ (l l' : List Nat) (f g : Nat → Op),
      acq = l.map (fun i => { slot := i, op := f i }) ∧
      rel = l'.map (fun i => { slot := i, op := g i }) ∧
      (∀ i, f i = .Lock ∨ f i = .RLock) ∧ (∀ i, g i = (f i).release) ∧
      l.Sorted (· > ·) ∧ l'.Nodup ∧ (∀ i, i ∈ l ↔ i ∈ l') ∧
      (∀ i, i ∈ l' → i < locks.table.length) := by
  by_cases hne : locks.table = []
  · have e : ∀ (op : Nat → Op) (lst : List Nat), (locks.forIndices op lst).calls = [] :=
      fun op lst => by rw [forIndices_of_empty locks op hne]
    refine ⟨[], [], fun _ => .Lock, fun _ => .Unlock, ?_, ?_, fun _ => Or.inl rfl,
      fun _ => rfl, List.sorted_nil, List.nodup_nil, fun _ => Iff.rfl, by simp⟩
    · cases h <;> simp [Locks.Locks, Locks.RLocks, Locks.RWLocks, e]
    · cases h <;> simp [Locks.UnLocks, Locks.RUnLocks, Locks.RWUnLocks, e]
  · have hmem : ∀ keys i, i ∈ locks.toLockIndices keys false ↔
        i ∈ locks.toLockIndices keys true := fun keys i => by
      rw [mem_toLockIndices, mem_toLockIndices]
    cases h with
    | ofLocks keys =>
      refine ⟨locks.toLockIndices keys false, locks.toLockIndices keys true,
        fun _ => .Lock, fun _ => .Unlock, ?_, ?_, fun _ => Or.inl rfl, fun _ => rfl,
        toLockIndices_descending locks keys, toLockIndices_nodup locks keys true,
        hmem keys, toLockIndices_lt locks hne keys true⟩
      · exact congrArg Trace.calls
          (forIndices_of_lt locks _ _ (toLockIndices_lt locks hne keys false))
      · exact congrArg Trace.calls
          (forIndices_of_lt locks _ _ (toLockIndices_lt locks hne keys true))
    | ofRLocks keys =>
      refine ⟨locks.toLockIndices keys false, locks.toLockIndices keys true,
        fun _ => .RLock, fun _ => .RUnlock, ?_, ?_, fun _ => Or.inr rfl, fun _ => rfl,
        toLockIndices_descending locks keys, toLockIndices_nodup locks keys true,
        hmem keys, toLockIndices_lt locks hne keys true⟩
      · exact congrArg Trace.calls
          (forIndices_of_lt locks _ _ (toLockIndices_lt locks hne keys false))
      · exact congrArg Trace.calls
          (forIndices_of_lt locks _ _ (toLockIndices_lt locks hne keys true))
    | ofRWLocks w r =>
      refine ⟨locks.toLockIndices (w ++ r) false, locks.toLockIndices (w ++ r) false,
        fun i => if i ∈ locks.toLockIndices w false then .Lock else .RLock,
        fun i => if i ∈ locks.toLockIndices w false then .Unlock else .RUnlock,
        ?_, ?_, ?_, ?_,
        toLockIndices_descending locks (w ++ r), toLockIndices_nodup locks (w ++ r) false,
        fun _ => Iff.rfl, toLockIndices_lt locks hne (w ++ r) false⟩
      · rw [RWLocks_eq locks hne]
      · rw [RWUnLocks_eq locks hne]
      · intro i; by_cases hi : i ∈ locks.toLockIndices w false <;> simp [hi]
      · intro i; by_cases hi : i ∈ locks.toLockIndices w false <;> simp [hi, Op.release]

/-- Two sessions on a table whose slots are all free start in a state that satisfies the
invariant. -/
theorem Inv.init (locks : Locks) (hfree : ∀ m, m ∈ locks.table → m = RWMutex.free)
    {acqA relA acqB relB : List Call} (hA : IsSession locks acqA relA)
    (hB : IsSession locks acqB relB) :
    Inv { table := locks.table, a := acqA ++ relA, b := acqB ++ relB }
      { acq := acqA, rel := relA } { acq := acqB, rel := relB } := by
  obtain ⟨l, l', f, g, rfl, rfl, hf, hg, hl, hl', hmem, hlt⟩ := session_lists locks hA
  obtain ⟨k, k', f', g', rfl, rfl, hf', hg', hk, hk', hmem', hlt'⟩ := session_lists locks hB
  obtain ⟨wx, hx⟩ := wf_of_lists locks.table.length l l' f g hf hg hl hl' hmem hlt
  obtain ⟨wy, hy⟩ := wf_of_lists locks.table.length k k' f' g' hf' hg' hk hk' hmem' hlt'
  refine { ha := rfl, hb := rfl, wx := wx, wy := wy, tbl := ?_, excl_x := ?_, excl_y := ?_ }
  · intro i hi
    have hi' : i < locks.table.length := hi
    show locks.table[i]? = _
    rw [List.getElem?_eq_getElem hi', hfree _ (List.getElem_mem _)]
    simp [mutexOf, hx, hy, RWMutex.free]
  · intro i hi; rw [hx] at hi; cases hi
  · intro i hi; rw [hy] at hi; cases hi

end lock

namespace lock

theorem Inv.reachable {s0 s : System} (hs : Relation.ReflTransGen Step s0 s) :
    ∀ {x y : Thread}, Inv s0 x y → ∃ x' y', Inv s x' y' := by
  induction hs with
  | refl => intro x y h; exact ⟨x, y, h⟩
  | tail _ hstep ih =>
    intro x y h
    obtain ⟨x1, y1, h1⟩ := ih h
    exact h1.step hstep

theorem multi_key_no_panic (locks : Locks) (hne : locks.table ≠ [])
    (keys w r : List GoString) :
    (locks.Locks keys).panic = none ∧ (locks.RLocks keys).panic = none ∧
    (locks.RWLocks w r).panic = none ∧ (locks.UnLocks keys).panic = none ∧
    (locks.RUnLocks keys).panic = none ∧ (locks.RWUnLocks w r).panic = none := by
  refine ⟨?_, ?_, ?_, ?_, ?_, ?_⟩
  · exact congrArg Trace.panic
      (forIndices_of_lt locks _ _ (toLockIndices_lt locks hne keys false))
  · exact congrArg Trace.panic
      (forIndices_of_lt locks _ _ (toLockIndices_lt locks hne keys false))
  · rw [RWLocks_eq locks hne]
  · exact congrArg Trace.panic
      (forIndices_of_lt locks _ _ (toLockIndices_lt locks hne keys true))
  · exact congrArg Trace.panic
      (forIndices_of_lt locks _ _ (toLockIndices_lt locks hne keys true))
  · rw [RWUnLocks_eq locks hne]

/-- C19, as stated, fails on the empty lock table (`Make(0)`): `Locks("x", "y")` does not
complete, it panics in the access `locks.table[index]` before any mutex call. -/
theorem Locks_empty_table_panics :
    Make 0 = .ok { table := [] } ∧
    ({ table := [] } : Locks).Locks [[120], [121]] =
      { calls := [], panic := some "runtime error: index out of range" } := by
  refine ⟨rfl, by decide⟩

/-- C19 (amended): on a non-empty lock table whose slots are all free, let two goroutines
each call one of `Locks`, `RLocks`, `RWLocks` with arbitrary key lists and later the
matching `UnLocks`, `RUnLocks`, `RWUnLocks`. None of these methods panics. In every state
that the two goroutines can reach by interleaving their mutex calls, either both have made
all their calls or one of them can make its next call (no circular wait); every step
shortens the remaining calls by one, so every run is finite; and the run can always be
continued until both goroutines are done, which leaves every slot free. -/
theorem two_goroutines_no_deadlock (locks : Locks) (hne : locks.table ≠ [])
    (hfree : ∀ m, m ∈ locks.table → m = RWMutex.free)
    (acqA relA acqB relB : List Call) (hA : IsSession locks acqA relA)
    (hB : IsSession locks acqB relB) (s : System)
    (hs : Relation.ReflTransGen Step
      { table := locks.table, a := acqA ++ relA, b := acqB ++ relB } s) :
    ((s.a = [] ∧ s.b = []) ∨ ∃ s1, Step s s1) ∧
    (∀ s1, Step s s1 → s1.a.length + s1.b.length + 1 = s.a.length + s.b.length) ∧
    (∃ sf, Relation.ReflTransGen Step s sf ∧ sf.a = [] ∧ sf.b = [] ∧
      ∀ m, m ∈ sf.table → m = RWMutex.free) ∧
    (∀ keys w r : List GoString,
      (locks.Locks keys).panic = none ∧ (locks.RLocks keys).panic = none ∧
      (locks.RWLocks w r).panic = none ∧ (locks.UnLocks keys).panic = none ∧
      (locks.RUnLocks keys).panic = none ∧ (locks.RWUnLocks w r).panic = none) := by
  obtain ⟨x, y, h⟩ := Inv.reachable hs (Inv.init locks hfree hA hB)
  exact ⟨h.progress, fun s1 hstep => hstep.measure, h.completes _ s x y rfl,
    multi_key_no_panic locks hne⟩

/-- Witness of `two_goroutines_no_deadlock`: 16 free slots, one goroutine with
`Locks("x", "y")`, the other with `Locks("y", "x")`, at the start. -/
theorem two_goroutines_no_deadlock_witness :
    (table16.table ≠ [] ∧ (∀ m, m ∈ table16.table → m = RWMutex.free) ∧
      IsSession table16 (table16.Locks [[120], [121]]).calls
        (table16.UnLocks [[120], [121]]).calls ∧
      IsSession table16 (table16.Locks [[121], [120]]).calls
        (table16.UnLocks [[121], [120]]).calls ∧
      Relation.ReflTransGen Step startXY startXY) ∧
    (((startXY.a = [] ∧ startXY.b = []) ∨ ∃ s1, Step startXY s1) ∧
    (∀ s1, Step startXY s1 →
      s1.a.length + s1.b.length + 1 = startXY.a.length + startXY.b.length) ∧
    (∃ sf, Relation.ReflTransGen Step startXY sf ∧ sf.a = [] ∧ sf.b = [] ∧
      ∀ m, m ∈ sf.table → m = RWMutex.free) ∧
    (∀ keys w r : List GoString,
      (table16.Locks keys).panic = none ∧ (table16.RLocks keys).panic = none ∧
      (table16.RWLocks w r).panic = none ∧ (table16.UnLocks keys).panic = none ∧
      (table16.RUnLocks keys).panic = none ∧ (table16.RWUnLocks w r).panic = none)) :=
  ⟨⟨by decide, fun _ hm => List.eq_of_mem_replicate hm, IsSession.ofLocks _,
      IsSession.ofLocks _, Relation.ReflTransGen.refl⟩,
    two_goroutines_no_deadlock table16 (by decide)
      (fun _ hm => List.eq_of_mem_replicate hm) _ _ _ _
      (IsSession.ofLocks [[120], [121]]) (IsSession.ofLocks [[121], [120]]) startXY
      Relation.ReflTransGen.refl⟩

end lock
